import Mathlib

/-!
# A shallow embedding of the coinkit SCP core

This file embeds, in Lean, the consensus core of the coinkit repository:
the nomination state, the three-phase ballot state, the per-slot Block and
the slot-sequencing Chain. Pure Go functions become Lean functions; the
mutating Go methods become functions from state to state (paired with the
Bool the method returns); Go calls to log.Fatal / panic, and nil-pointer
dereferences, are modelled by returning `none` from an `Option` result.
Go maps keyed by node id become association lists with replace-on-update
semantics; the quorum predicates only inspect membership, so list order is
irrelevant where Go map iteration order was random.

Helper code that the repository uses but whose source is not available
here (the quorum predicates, the ballot-message predicates, message
comparison, value combination, and the ValueStore trait) is modelled from
the specification; each such definition carries a doc comment starting
with `Modelled from the spec:`.
-/

namespace Coinkit

/-- A slot value. For now each value just holds a list of comments
(network/scp.go). Comparable for equality. -/
structure SlotValue where
  Comments : List String
deriving DecidableEq, Repr

/-- A quorum slice: a members list and a threshold (network/scp.go). -/
structure QuorumSlice where
  Members : List String
  Threshold : Int
deriving DecidableEq, Repr

/-- Modelled from the spec: SlotValue is comparable for equality; `Equal`
is the equality test the Go code calls on slot values. -/
def Equal (a b : SlotValue) : Bool :=
  a = b

/-- Modelled from the spec: membership of a value in a list of values,
using value equality; the Go helper `HasSlotValue`. -/
def HasSlotValue (list : List SlotValue) (v : SlotValue) : Bool :=
  list.any fun w => Equal w v

/-- Modelled from the spec: deterministic combination of a list of values
(the ValueStore combine hook); combines all comment lists, without
duplicates. Only its determinism matters to the claims below. -/
def CombineSlice (list : List SlotValue) : SlotValue :=
  ⟨((list.map SlotValue.Comments).flatten).dedup⟩

/-- Whether a list of values contains a duplicate (the check performed by
the Go helper `AssertNoDupes`, which aborts on duplicates). -/
def hasDupes : List SlotValue → Bool
  | [] => false
  | v :: rest => HasSlotValue rest v || hasDupes rest

/-- Association-list lookup for the Go maps keyed by node id or slot. -/
def lookupA {κ β : Type} [DecidableEq κ] : List (κ × β) → κ → Option β
  | [], _ => none
  | p :: rest, k => if p.1 = k then some p.2 else lookupA rest k

/-- Association-list update with replacement, the Go map assignment. -/
def updateA {κ β : Type} [DecidableEq κ] (l : List (κ × β)) (k : κ) (v : β) :
    List (κ × β) :=
  (k, v) :: l.filter fun p => p.1 ≠ k

/-- Modelled from the spec: a set S of node ids meets quorum iff it
contains self and every node of S has its declared slice satisfied at its
threshold within S; nodes without a declared slice fail. -/
def MeetsQuorum (sliceOf : String → Option QuorumSlice) (self : String)
    (nodes : List String) : Bool :=
  nodes.contains self &&
    nodes.all fun v =>
      match sliceOf v with
      | some qs =>
          decide (qs.Threshold ≤
            ((qs.Members.filter fun u => nodes.contains u).length : Int))
      | none => false

/-- Modelled from the spec: B is v-blocking for a slice iff B holds more
than (members - threshold) of its members. -/
def QuorumSlice.BlockedBy (qs : QuorumSlice) (nodes : List String) : Bool :=
  decide ((qs.Members.length : Int) - qs.Threshold <
    ((qs.Members.filter fun u => nodes.contains u).length : Int))

/-- The nomination message: slot, voted list, accepted list, slice
(part_003 of the network package). -/
structure NominationMessage where
  I : Int
  Nom : List SlotValue
  Acc : List SlotValue
  D : QuorumSlice
deriving DecidableEq, Repr

/-- The per-slot nomination state (part_003): voted X, accepted Y,
confirmed Z, last message per peer, own id, own slice, message count. -/
structure NominationState where
  X : List SlotValue
  Y : List SlotValue
  Z : List SlotValue
  N : List (String × NominationMessage)
  publicKey : String
  D : QuorumSlice
  received : Nat
deriving DecidableEq, Repr

/-- NewNominationState from part_003. -/
def NewNominationState (publicKey : String) (qs : QuorumSlice) :
    NominationState :=
  ⟨[], [], [], [], publicKey, qs, 0⟩

/-- NominationState.HasNomination: whether X is non-empty. -/
def NominationState.HasNomination (s : NominationState) : Bool :=
  decide (0 < s.X.length)

/-- NominationState.SetDefault: seed X with v when it is empty. -/
def NominationState.SetDefault (s : NominationState) (v : SlotValue) :
    NominationState :=
  if s.HasNomination then s else { s with X := [v] }

/-- NominationState.PredictValue: combine Z, else Y, else X; `none` models
the Go panic when all three are empty. -/
def NominationState.PredictValue (s : NominationState) : Option SlotValue :=
  if 0 < s.Z.length then some (CombineSlice s.Z)
  else if 0 < s.Y.length then some (CombineSlice s.Y)
  else if 0 < s.X.length then some (CombineSlice s.X)
  else none

/-- NominationState.QuorumSlice: own slice for self, else the slice
declared by the last message of the node. -/
def NominationState.QuorumSliceOf (s : NominationState) (node : String) :
    Option QuorumSlice :=
  if node = s.publicKey then some s.D
  else (lookupA s.N node).map (·.D)

/-- NominationState.AssertValid: the three value lists must be
duplicate-free; `none` models the abort. -/
def NominationState.AssertValid (s : NominationState) : Option Unit :=
  if hasDupes s.X || hasDupes s.Y || hasDupes s.Z then none else some ()

/-- The (votedOrAccepted, accepted) node lists that MaybeAdvance builds
for a value: self by X / Y membership, then every peer by its message. -/
def NominationState.advanceSets (s : NominationState) (v : SlotValue) :
    List String × List String :=
  s.N.foldl
    (fun pr p =>
      if HasSlotValue p.2.Acc v then (pr.1 ++ [p.1], pr.2 ++ [p.1])
      else if HasSlotValue p.2.Nom v then (pr.1 ++ [p.1], pr.2)
      else pr)
    ((if HasSlotValue s.X v then [s.publicKey] else []),
     (if HasSlotValue s.Y v then [s.publicKey] else []))

/-- NominationState.MaybeAdvance (part_003): accept the value when a
quorum voted-or-accepted it or a blocking set accepted it; confirm when a
quorum accepted. Returns the changed flag; `none` models the AssertNoDupes
abort. -/
def NominationState.MaybeAdvance (s : NominationState) (v : SlotValue) :
    Option (Bool × NominationState) :=
  if HasSlotValue s.Z v then some (false, s)
  else
    let pr := s.advanceSets v
    let accept := MeetsQuorum s.QuorumSliceOf s.publicKey pr.1 ||
      s.D.BlockedBy pr.2
    if accept && !HasSlotValue s.Y v then
      if hasDupes s.Y then none
      else
        let s1 := { s with Y := s.Y ++ [v] }
        if hasDupes s1.Y then none
        else
          let acc1 := pr.2 ++ [s.publicKey]
          if MeetsQuorum s1.QuorumSliceOf s1.publicKey acc1 then
            some (true, { s1 with Z := s1.Z ++ [v] })
          else some (true, s1)
    else
      if MeetsQuorum s.QuorumSliceOf s.publicKey pr.2 then
        some (true, { s with Z := s.Z ++ [v] })
      else some (false, s)

/-- Append a value to the touched list unless already present; the
de-duplication performed inside NominationState.Handle. -/
def addTouched (touched : List SlotValue) (v : SlotValue) : List SlotValue :=
  if HasSlotValue touched v then touched else touched ++ [v]

/-- The loop over the new suffix of the Nom list in part_003: each new
value is added to touched, and to X when not present yet. State is the
(touched, X) pair. -/
def nomSuffixLoop (acc : List SlotValue × List SlotValue)
    (vs : List SlotValue) : List SlotValue × List SlotValue :=
  vs.foldl
    (fun pr v =>
      (addTouched pr.1 v, if HasSlotValue pr.2 v then pr.2 else pr.2 ++ [v]))
    acc

/-- The touched list Handle passes to MaybeAdvance: the new Nom suffix
values, then the new Acc suffix values, de-duplicated in order. -/
def NominationState.touchedOf (s : NominationState) (node : String)
    (m : NominationMessage) : List SlotValue :=
  let old := lookupA s.N node
  let oldLenNom := (old.map fun o => o.Nom.length).getD 0
  let oldLenAcc := (old.map fun o => o.Acc.length).getD 0
  (m.Acc.drop oldLenAcc).foldl addTouched
    (nomSuffixLoop ([], s.X) (m.Nom.drop oldLenNom)).1

/-- The loop of Handle over the touched values: run MaybeAdvance on each
in order. -/
def advanceAll : List SlotValue → NominationState → Option NominationState
  | [], s => some s
  | v :: vs, s =>
      match s.MaybeAdvance v with
      | none => none
      | some r => advanceAll vs r.2

/-- NominationState.Handle (part_003): drop stale and duplicate messages
by list lengths; otherwise record the message, extend X with the new Nom
suffix, and run MaybeAdvance on every newly touched value. -/
def NominationState.Handle (s : NominationState) (node : String)
    (m : NominationMessage) : Option NominationState :=
  let old := lookupA s.N node
  let oldLenNom := (old.map fun o => o.Nom.length).getD 0
  let oldLenAcc := (old.map fun o => o.Acc.length).getD 0
  if m.Nom.length < oldLenNom then some s
  else if m.Acc.length < oldLenAcc then some s
  else if m.Nom.length = oldLenNom ∧ m.Acc.length = oldLenAcc then some s
  else
    let s1 : NominationState :=
      { s with N := updateA s.N node m, received := s.received + 1 }
    let pr := nomSuffixLoop ([], s1.X) (m.Nom.drop oldLenNom)
    let touched := (m.Acc.drop oldLenAcc).foldl addTouched pr.1
    advanceAll touched { s1 with X := pr.2 }

/-- The ballot phases (network/scp.go). -/
inductive Phase where
  | Prepare
  | Confirm
  | Externalize
deriving DecidableEq, Repr

/-- A ballot: a counter and a value (network/scp.go). -/
structure Ballot where
  n : Int
  x : SlotValue
deriving DecidableEq, Repr

/-- The prepare-phase ballot message: slot, current ballot (Bn, Bx), the
two accepted-prepared ballots (Pn, Px) and (Ppn, Ppx) with counter 0
encoding absence, the voted-commit range [Cn, Hn], and the slice. -/
structure PrepareMessage where
  I : Int
  Bn : Int
  Bx : SlotValue
  Pn : Int
  Px : SlotValue
  Ppn : Int
  Ppx : SlotValue
  Cn : Int
  Hn : Int
  D : QuorumSlice
deriving DecidableEq, Repr

/-- The confirm-phase ballot message: slot, committed value, the
accepted-prepared counter Pn, the accepted-commit range [Cn, Hn], and the
slice. -/
structure ConfirmMessage where
  I : Int
  X : SlotValue
  Pn : Int
  Cn : Int
  Hn : Int
  D : QuorumSlice
deriving DecidableEq, Repr

/-- The externalize message: slot, externalized value, the
confirmed-commit range [Cn, Hn], and the slice. -/
structure ExternalizeMessage where
  I : Int
  X : SlotValue
  Cn : Int
  Hn : Int
  D : QuorumSlice
deriving DecidableEq, Repr

/-- A ballot message is a prepare, confirm or externalize message. -/
inductive BallotMessage where
  | prepare (m : PrepareMessage)
  | confirm (m : ConfirmMessage)
  | externalize (m : ExternalizeMessage)
deriving DecidableEq, Repr

/-- The phase a ballot message belongs to. -/
def BallotMessage.phaseOf : BallotMessage → Phase
  | .prepare _ => .Prepare
  | .confirm _ => .Confirm
  | .externalize _ => .Externalize

/-- The slice declared by a ballot message. -/
def BallotMessage.quorumSlice : BallotMessage → QuorumSlice
  | .prepare m => m.D
  | .confirm m => m.D
  | .externalize m => m.D

/-- Modelled from the spec: whether the sender of the message accepts
(n, x) as prepared. A prepare sender accepts what its p or pPrime covers
compatibly; a confirm sender accepts every compatible ballot up to its
accepted-prepared counter Pn; an externalize sender has accepted all
prepared ballots of its value. -/
def BallotMessage.AcceptAsPrepared (bm : BallotMessage) (n : Int)
    (x : SlotValue) : Bool :=
  match bm with
  | .prepare m => (Equal x m.Px && n ≤ m.Pn) || (Equal x m.Ppx && n ≤ m.Ppn)
  | .confirm m => Equal x m.X && n ≤ m.Pn
  | .externalize m => Equal x m.X

/-- Modelled from the spec: whether the sender votes to prepare (n, x). A
prepare sender votes to prepare its current ballot and the compatible
ballots below it; confirm and externalize senders vote to prepare
everything compatible with their committed value. -/
def BallotMessage.VoteToPrepare (bm : BallotMessage) (n : Int)
    (x : SlotValue) : Bool :=
  match bm with
  | .prepare m => Equal x m.Bx && n ≤ m.Bn
  | .confirm m => Equal x m.X
  | .externalize m => Equal x m.X

/-- Modelled from the spec: whether the sender accepts (n, x) as
committed. A prepare sender accepts no commit yet; confirm and
externalize senders accept commits of their value inside [Cn, Hn]. -/
def BallotMessage.AcceptAsCommitted (bm : BallotMessage) (n : Int)
    (x : SlotValue) : Bool :=
  match bm with
  | .prepare _ => false
  | .confirm m => Equal x m.X && m.Cn ≤ n && n ≤ m.Hn
  | .externalize m => Equal x m.X && m.Cn ≤ n && n ≤ m.Hn

/-- Modelled from the spec: whether the sender votes to commit (n, x). A
prepare sender votes to commit its compatible range [Cn, Hn] when Cn is
non-zero; confirm and externalize senders are committed to their value. -/
def BallotMessage.VoteToCommit (bm : BallotMessage) (n : Int)
    (x : SlotValue) : Bool :=
  match bm with
  | .prepare m => Equal x m.Bx && !(m.Cn = 0 : Bool) && m.Cn ≤ n && n ≤ m.Hn
  | .confirm m => Equal x m.X
  | .externalize m => Equal x m.X

/-- Modelled from the spec: whether the sender could ever vote for (n, x),
that is, its ballot counter has not passed n on an incompatible value. -/
def BallotMessage.CouldEverVoteFor (bm : BallotMessage) (n : Int)
    (x : SlotValue) : Bool :=
  match bm with
  | .prepare m => Equal x m.Bx || n > m.Bn
  | .confirm m => Equal x m.X
  | .externalize m => Equal x m.X

/-- Numeric rank of a phase, for message comparison. -/
def Phase.rank : Phase → Int
  | .Prepare => 0
  | .Confirm => 1
  | .Externalize => 2

/-- Three-way comparison on integers as a -1 / 0 / 1 code. -/
def cmpInt (a b : Int) : Int :=
  if a < b then -1 else if b < a then 1 else 0

/-- Lexicographic chaining of comparison codes. -/
def cmpLex (a next : Int) : Int :=
  if a = 0 then next else a

/-- Three-way comparison on strings. -/
def cmpStr (a b : String) : Int :=
  if a = b then 0 else if a < b then -1 else 1

/-- Three-way comparison on lists of strings. -/
def cmpStrList : List String → List String → Int
  | [], [] => 0
  | [], _ :: _ => -1
  | _ :: _, [] => 1
  | a :: as, b :: bs => cmpLex (cmpStr a b) (cmpStrList as bs)

/-- Three-way comparison on slot values, through their comment lists. -/
def cmpSlotValue (a b : SlotValue) : Int :=
  cmpStrList a.Comments b.Comments

/-- Modelled from the spec: the comparison of two ballot messages used to
discard weaker messages, lexicographic on the phase and then on the
message fields. -/
def Compare (a b : BallotMessage) : Int :=
  cmpLex (cmpInt a.phaseOf.rank b.phaseOf.rank)
    (match a, b with
     | .prepare ma, .prepare mb =>
         cmpLex (cmpInt ma.Bn mb.Bn)
           (cmpLex (cmpSlotValue ma.Bx mb.Bx)
             (cmpLex (cmpInt ma.Pn mb.Pn)
               (cmpLex (cmpSlotValue ma.Px mb.Px)
                 (cmpLex (cmpInt ma.Ppn mb.Ppn)
                   (cmpLex (cmpSlotValue ma.Ppx mb.Ppx)
                     (cmpLex (cmpInt ma.Cn mb.Cn) (cmpInt ma.Hn mb.Hn)))))))
     | .confirm ma, .confirm mb =>
         cmpLex (cmpInt ma.Pn mb.Pn)
           (cmpLex (cmpInt ma.Cn mb.Cn)
             (cmpLex (cmpInt ma.Hn mb.Hn) (cmpSlotValue ma.X mb.X)))
     | .externalize ma, .externalize mb =>
         cmpLex (cmpInt ma.Cn mb.Cn)
           (cmpLex (cmpInt ma.Hn mb.Hn) (cmpSlotValue ma.X mb.X))
     | _, _ => 0)

/-- Modelled from the spec: b1 covers b2 compatibly, that is b1 is present
with at least the counter of b2 and an equal value (the Go helper
gtecompat). -/
def gtecompat (b1 : Option Ballot) (b2 : Ballot) : Bool :=
  b1.any fun bb => b2.n ≤ bb.n && Equal bb.x b2.x

/-- Modelled from the spec: b1 dominates b2 incompatibly, that is b1 is
present with at least the counter of b2 and a different value (the Go
helper gteincompat). -/
def gteincompat (b1 : Option Ballot) (b2 : Ballot) : Bool :=
  b1.any fun bb => b2.n ≤ bb.n && !Equal bb.x b2.x

/-- The per-slot ballot state (part_003): phase, current ballot b, the
monotonicity witness last, the two highest incompatible accepted-prepared
ballots p and pPrime, the range [cn, hn], the next value z, the last
message per peer, own id, own slice, message count. -/
structure BallotState where
  phase : Phase
  b : Option Ballot
  last : Option Ballot
  p : Option Ballot
  pPrime : Option Ballot
  cn : Int
  hn : Int
  z : Option SlotValue
  M : List (String × BallotMessage)
  publicKey : String
  D : QuorumSlice
  received : Nat
deriving DecidableEq, Repr

/-- NewBallotState from part_003. -/
def NewBallotState (publicKey : String) (qs : QuorumSlice) : BallotState :=
  ⟨.Prepare, none, none, none, none, 0, 0, none, [], publicKey, qs, 0⟩

/-- BallotState.QuorumSlice: own slice for self, else the slice declared
by the last ballot message of the node. -/
def BallotState.QuorumSliceOf (s : BallotState) (node : String) :
    Option QuorumSlice :=
  if node = s.publicKey then some s.D
  else (lookupA s.M node).map (·.quorumSlice)

/-- The body of BallotState.AcceptedAbort in the Prepare phase: p or
pPrime accepts a prepared ballot of counter at least n incompatible
with x. -/
def abortCheck (p pPrime : Option Ballot) (n : Int) (x : SlotValue) : Bool :=
  (p.any fun bb => n ≤ bb.n && !Equal bb.x x) ||
    (pPrime.any fun bb => n ≤ bb.n && !Equal bb.x x)

/-- BallotState.AcceptedAbort (part_003): past the Prepare phase every
value incompatible with b is aborted (dereferencing b, hence `none` when b
is nil there); in the Prepare phase, p or pPrime must cover an
incompatible prepared ballot. -/
def BallotState.AcceptedAbort (s : BallotState) (n : Int) (x : SlotValue) :
    Option Bool :=
  if s.phase = .Prepare then some (abortCheck s.p s.pPrime n x)
  else s.b.map fun bb => !Equal x bb.x

/-- The commit-abandon loop at the end of MaybeAcceptAsPrepared: while cn
is non-zero and the abort of (cn, bx) is accepted, bump cn, clearing it to
0 past hn. Structurally recursive on explicit fuel; the caller passes fuel
that the loop cannot exhaust. -/
def cnLoop (p pPrime : Option Ballot) (bx : SlotValue) (hn : Int) :
    Nat → Int → Int
  | 0, cn => cn
  | fuel + 1, cn =>
      if cn ≠ 0 ∧ abortCheck p pPrime cn bx then
        if hn < cn + 1 then 0 else cnLoop p pPrime bx hn fuel (cn + 1)
      else cn

/-- Fuel that the commit-abandon loop cannot exhaust: enough to step from
cn past hn, or up to 0 from below. -/
def cnFuel (hn cn : Int) : Nat :=
  (hn + 1 - cn).toNat + (-cn).toNat + 1

/-- The (votedOrAccepted, accepted) node lists MaybeAcceptAsPrepared
builds for (n, x): self when its own ballot covers (n, x) compatibly, then
every peer by its message. -/
def BallotState.preparedSets (s : BallotState) (n : Int) (x : SlotValue) :
    List String × List String :=
  s.M.foldl
    (fun pr p =>
      if p.2.AcceptAsPrepared n x then (pr.1 ++ [p.1], pr.2 ++ [p.1])
      else if p.2.VoteToPrepare n x then (pr.1 ++ [p.1], pr.2)
      else pr)
    ((if s.b.any fun bb => n ≤ bb.n && Equal bb.x x then [s.publicKey]
      else []),
     [])

/-- The abort step inside MaybeAcceptAsPrepared: when the current ballot
b is at a counter at most n with a different value, accepting (n, x) as
prepared aborts b, clearing cn and switching b to (n, x). -/
def abortForPrepared (s : BallotState) (n : Int) (x : SlotValue) :
    BallotState :=
  if s.b.any fun bb => bb.n ≤ n && !Equal bb.x x then
    { s with cn := 0, b := some ⟨n, x⟩ }
  else s

/-- The p and pPrime update inside MaybeAcceptAsPrepared: keep them the
two highest mutually incompatible accepted-prepared ballots; `none` models
the internal fatal assertion on a counter that should have been
short-circuited. -/
def updatePPrepared (s1 : BallotState) (n : Int) (x : SlotValue) :
    Option BallotState :=
  match s1.p with
  | none => some { s1 with p := some ⟨n, x⟩ }
  | some pb =>
      if Equal pb.x x then
        if n ≤ pb.n then none
        else some { s1 with p := some ⟨n, x⟩ }
      else if pb.n ≤ n then
        some { s1 with pPrime := s1.p, p := some ⟨n, x⟩ }
      else some { s1 with pPrime := some ⟨n, x⟩ }

/-- The final step of MaybeAcceptAsPrepared: give up votes to commit
whose abort is now accepted, by advancing cn through the commit-abandon
loop. -/
def abandonContradictedCommit (s2 : BallotState) : BallotState :=
  match s2.b with
  | none => s2
  | some bb =>
      { s2 with
        cn := cnLoop s2.p s2.pPrime bb.x s2.hn (cnFuel s2.hn s2.cn) s2.cn }

/-- BallotState.MaybeAcceptAsPrepared (part_003): in the Prepare phase,
for a non-zero counter not already covered by p or pPrime, accept (n, x)
as prepared when a quorum voted-or-accepted it or a blocking set accepted
it; on accept, abort b when it is compatible in counter but not in value,
update p and pPrime, and abandon votes to commit whose abort is accepted.
`none` models the internal fatal assertion. -/
def BallotState.MaybeAcceptAsPrepared (s : BallotState) (n : Int)
    (x : SlotValue) : Option (Bool × BallotState) :=
  if s.phase ≠ .Prepare then some (false, s)
  else if n = 0 then some (false, s)
  else if s.p.any fun pb => n ≤ pb.n && Equal pb.x x then some (false, s)
  else if s.pPrime.any fun pb => n ≤ pb.n && Equal pb.x x then
    some (false, s)
  else if s.pPrime.any fun pb => n ≤ pb.n then some (false, s)
  else
    let pr := s.preparedSets n x
    if !MeetsQuorum s.QuorumSliceOf s.publicKey pr.1 &&
        !s.D.BlockedBy pr.2 then
      some (false, s)
    else
      (updatePPrepared (abortForPrepared s n x) n x).map fun s2 =>
        (true, abandonContradictedCommit s2)

/-- The accepted node list MaybeConfirmAsPrepared builds for (n, x): self
when p or pPrime covers (n, x) compatibly, then every peer accepting it as
prepared. -/
def BallotState.confirmPreparedSet (s : BallotState) (n : Int)
    (x : SlotValue) : List String :=
  s.M.foldl
    (fun acc p => if p.2.AcceptAsPrepared n x then acc ++ [p.1] else acc)
    (if gtecompat s.p ⟨n, x⟩ || gtecompat s.pPrime ⟨n, x⟩ then [s.publicKey]
     else [])

/-- The state update of a successful MaybeConfirmAsPrepared: set hn and
z, adopt the ballot when b was nil, and start voting to commit from b.n
when cn is clear, the value matches b, no incompatible prepared ballot is
accepted at b.n or above, and b.n is not past n. -/
def confirmPreparedUpdate (s : BallotState) (n : Int) (x : SlotValue) :
    BallotState :=
  let s1 := { s with hn := n, z := some x }
  let s2 := if s1.b = none then { s1 with b := some ⟨n, x⟩ } else s1
  match s2.b with
  | some bb =>
      if s2.cn = 0 ∧ Equal x bb.x then
        if gteincompat s2.p ⟨n, x⟩ || gteincompat s2.pPrime ⟨n, x⟩ then s2
        else if n < bb.n then s2
        else { s2 with cn := bb.n }
      else s2
  | none => s2

/-- BallotState.MaybeConfirmAsPrepared (part_003): in the Prepare phase,
for a counter above hn, confirm (n, x) as prepared when a quorum accepts
it; on confirm set hn and z, adopt the ballot when b was nil, and start
voting to commit when allowed. `none` models the fatal contradiction when
cn is positive and x differs from the value of b (including the nil
dereference of b there). -/
def BallotState.MaybeConfirmAsPrepared (s : BallotState) (n : Int)
    (x : SlotValue) : Option (Bool × BallotState) :=
  if s.phase ≠ .Prepare then some (false, s)
  else if n ≤ s.hn then some (false, s)
  else
    let accepted := s.confirmPreparedSet n x
    if !MeetsQuorum s.QuorumSliceOf s.publicKey accepted then some (false, s)
    else
      let contra : Option Unit :=
        if 0 < s.cn then
          match s.b with
          | none => none
          | some bb => if !Equal x bb.x then none else some ()
        else some ()
      contra.map fun _ => (true, confirmPreparedUpdate s n x)

/-- The (votedOrAccepted, accepted) node lists MaybeAcceptAsCommitted
builds for (n, x): self when in the Prepare phase voting to commit a range
containing n for the value of b, then every peer by its message. -/
def BallotState.commitSets (s : BallotState) (n : Int) (x : SlotValue) :
    List String × List String :=
  s.M.foldl
    (fun pr p =>
      if p.2.AcceptAsCommitted n x then (pr.1 ++ [p.1], pr.2 ++ [p.1])
      else if p.2.VoteToCommit n x then (pr.1 ++ [p.1], pr.2)
      else pr)
    ((if s.phase = .Prepare ∧ (s.b.any fun bb => Equal bb.x x) ∧
          s.cn ≠ 0 ∧ s.cn ≤ n ∧ n ≤ s.hn then [s.publicKey]
      else []),
     [])

/-- BallotState.MaybeAcceptAsCommitted (part_003): outside the
Externalize phase and outside an already-accepted range, accept the commit
of (n, x) when a quorum voted-or-accepted it or a blocking set accepted
it; on accept move to the Confirm phase, replacing b and collapsing the
range to n for a new value, or widening [cn, hn] to include n for the
current value. -/
def BallotState.MaybeAcceptAsCommitted (s : BallotState) (n : Int)
    (x : SlotValue) : Bool × BallotState :=
  if s.phase = .Externalize then (false, s)
  else if s.phase = .Confirm ∧ s.cn ≤ n ∧ n ≤ s.hn then (false, s)
  else
    let pr := s.commitSets n x
    if !MeetsQuorum s.QuorumSliceOf s.publicKey pr.1 &&
        !s.D.BlockedBy pr.2 then
      (false, s)
    else
      let s1 := { s with phase := Phase.Confirm }
      if s.b.any fun bb => Equal bb.x x then
        (true,
          { s1 with
            cn := if n < s1.cn then n else s1.cn,
            hn := if s1.hn < n then n else s1.hn })
      else
        (true, { s1 with b := some ⟨n, x⟩, cn := n, hn := n, z := some x })

/-- The accepted node list MaybeConfirmAsCommitted builds for (n, x):
self when in the Confirm phase with n inside [cn, hn], then every peer
accepting the commit. -/
def BallotState.confirmCommittedSet (s : BallotState) (n : Int)
    (x : SlotValue) : List String :=
  s.M.foldl
    (fun acc p => if p.2.AcceptAsCommitted n x then acc ++ [p.1] else acc)
    (if s.phase = .Confirm ∧ s.cn ≤ n ∧ n ≤ s.hn then [s.publicKey] else [])

/-- BallotState.MaybeConfirmAsCommitted (part_003): past the Prepare
phase, for the value of b, confirm the commit of (n, x) when a quorum
accepts it; on confirm move from Confirm to Externalize collapsing the
range to n, or in Externalize widen [cn, hn] to include n. -/
def BallotState.MaybeConfirmAsCommitted (s : BallotState) (n : Int)
    (x : SlotValue) : Bool × BallotState :=
  if s.phase = .Prepare then (false, s)
  else if !(s.b.any fun bb => Equal bb.x x) then (false, s)
  else if s.phase ≠ .Confirm ∧ s.cn ≤ n ∧ n ≤ s.hn then (false, s)
  else
    let accepted := s.confirmCommittedSet n x
    if !MeetsQuorum s.QuorumSliceOf s.publicKey accepted then (false, s)
    else if s.phase = .Confirm then
      (true, { s with phase := Phase.Externalize, cn := n, hn := n })
    else
      (true,
        { s with
          cn := if n < s.cn then n else s.cn,
          hn := if s.hn < n then n else s.hn })

/-- BallotState.MaybeNextBallot (part_003): when z and b exist and the
peers that could never vote for b form a blocking set, bump the ballot to
(b.n + 1, z). -/
def BallotState.MaybeNextBallot (s : BallotState) : Bool × BallotState :=
  match s.z, s.b with
  | some zv, some bb =>
      let blockers := s.M.foldl
        (fun acc p =>
          if !p.2.CouldEverVoteFor bb.n bb.x then acc ++ [p.1] else acc)
        []
      if !s.D.BlockedBy blockers then (false, s)
      else (true, { s with b := some ⟨bb.n + 1, zv⟩ })
  | _, _ => (false, s)

/-- BallotState.Investigate (part_003): the four Maybe steps in order,
their changed flags discarded. -/
def BallotState.Investigate (s : BallotState) (n : Int) (x : SlotValue) :
    Option BallotState :=
  match s.MaybeAcceptAsPrepared n x with
  | none => none
  | some r1 =>
      match r1.2.MaybeConfirmAsPrepared n x with
      | none => none
      | some r2 =>
          some (((r2.2.MaybeAcceptAsCommitted n
            x).2.MaybeConfirmAsCommitted n x).2)

/-- The loop of Handle over an externalize message: investigate every
counter of the confirmed range in order. -/
def investigateRange (x : SlotValue) (cn : Int) :
    List Nat → BallotState → Option BallotState
  | [], s => some s
  | k :: ks, s =>
      match s.Investigate (cn + k) x with
      | none => none
      | some s1 => investigateRange x cn ks s1

/-- One investigation pass over the key ballots named by a message: for a
prepare message its b, p and pPrime; for a confirm message (Hn, X); for an
externalize message every counter in [Cn, Hn]. -/
def BallotState.investigateMessage (s : BallotState) (m : BallotMessage) :
    Option BallotState :=
  match m with
  | .prepare pm =>
      match s.Investigate pm.Bn pm.Bx with
      | none => none
      | some s1 =>
          match s1.Investigate pm.Pn pm.Px with
          | none => none
          | some s2 => s2.Investigate pm.Ppn pm.Ppx
  | .confirm cm => s.Investigate cm.Hn cm.X
  | .externalize em =>
      investigateRange em.X em.Cn
        (List.range (em.Hn + 1 - em.Cn).toNat) s

/-- The Handle processing loop of part_003: one investigation pass over
the message, then MaybeNextBallot; repeat while MaybeNextBallot bumped the
ballot. Recursion on explicit fuel; `none` on exhaustion models a run that
did not terminate within the fuel. -/
def ballotLoop (m : BallotMessage) : Nat → BallotState → Option BallotState
  | 0, _ => none
  | fuel + 1, s =>
      match s.investigateMessage m with
      | none => none
      | some s1 =>
          let r := s1.MaybeNextBallot
          if r.1 then ballotLoop m fuel r.2 else some r.2

/-- BallotState.Handle (part_003): drop the message when the stored one
from the node compares at least as strong; otherwise record it and run the
processing loop. -/
def BallotState.Handle (fuel : Nat) (s : BallotState) (node : String)
    (m : BallotMessage) : Option BallotState :=
  match lookupA s.M node with
  | some old =>
      if 0 ≤ Compare old m then some s
      else
        ballotLoop m fuel
          { s with M := updateA s.M node m, received := s.received + 1 }
  | none =>
      ballotLoop m fuel
        { s with M := updateA s.M node m, received := s.received + 1 }

/-- BallotState.MaybeInitializeValue (part_003): when z is nil set it to
v, and when b is also nil start on the ballot (1, v). -/
def BallotState.MaybeInitializeValue (s : BallotState) (v : SlotValue) :
    Bool × BallotState :=
  if s.z ≠ none then (false, s)
  else
    let s1 := { s with z := some v }
    if s1.b = none then (true, { s1 with b := some ⟨1, v⟩ })
    else (true, s1)

/-- BallotState.MaybeUpdateValue (part_003): only when hn is 0 and a
nomination exists; adopt the predicted value when it differs from z,
bumping the ballot (or starting it at counter 1). `none` models the
PredictValue panic, unreachable under the HasNomination guard. -/
def BallotState.MaybeUpdateValue (s : BallotState) (ns : NominationState) :
    Option (Bool × BallotState) :=
  if s.hn ≠ 0 then some (false, s)
  else if !ns.HasNomination then some (false, s)
  else
    match ns.PredictValue with
    | none => none
    | some v =>
        if s.z.any fun zv => Equal v zv then some (false, s)
        else
          let s1 := { s with z := some v }
          match s1.b with
          | none => some (true, { s1 with b := some ⟨1, v⟩ })
          | some bb => some (true, { s1 with b := some ⟨bb.n + 1, v⟩ })

/-- BallotState.HasMessage: whether a ballot exists to report. -/
def BallotState.HasMessage (s : BallotState) : Bool :=
  s.b ≠ none

/-- The prepare-phase AssertValid check of part_003: a live vote to
commit from cn contradicting an accepted prepared ballot. -/
def liveContraCommit (b pOpt : Option Ballot) (cn : Int) : Bool :=
  match b, pOpt with
  | some bb, some pb => !Equal bb.x pb.x && cn ≠ 0 && cn ≤ pb.n
  | _, _ => false

/-- BallotState.AssertValid (part_003): cn at most hn; p and pPrime
incompatible; in the Prepare phase no live vote to commit contradicting an
accepted prepared abort, and the value of b monotone against last; on
success last is refreshed from b in the Prepare phase. `none` models the
fatal aborts. -/
def BallotState.AssertValid (s : BallotState) : Option BallotState :=
  if s.hn < s.cn then none
  else if match s.p, s.pPrime with
    | some pb, some ppb => Equal pb.x ppb.x
    | _, _ => false then none
  else if s.phase = .Prepare ∧ liveContraCommit s.b s.p s.cn then none
  else if s.phase = .Prepare ∧ liveContraCommit s.b s.pPrime s.cn then none
  else if s.phase = .Prepare ∧ s.b ≠ none then
    if match s.b, s.last with
      | some bb, some lb => !Equal bb.x lb.x && bb.n < lb.n
      | _, _ => false then none
    else some { s with last := s.b }
  else some s

/-- The message union routed by Block and Chain: nomination, the three
ballot kinds, and the catch-up info request. -/
inductive Msg where
  | nomination (m : NominationMessage)
  | prepare (m : PrepareMessage)
  | confirm (m : ConfirmMessage)
  | externalize (m : ExternalizeMessage)
  | info (I : Int)
deriving DecidableEq, Repr

/-- The slot a message speaks about. -/
def Msg.slot : Msg → Int
  | .nomination m => m.I
  | .prepare m => m.I
  | .confirm m => m.I
  | .externalize m => m.I
  | .info i => i

/-- Whether the message is a catch-up info request. -/
def Msg.isInfo : Msg → Bool
  | .info _ => true
  | _ => false

/-- The per-slot Block (part_002): slot, nomination and ballot sub-state,
the externalize message once finalized, slice and own id. -/
structure Block where
  slot : Int
  nState : NominationState
  bState : BallotState
  external : Option ExternalizeMessage
  D : QuorumSlice
  publicKey : String
deriving DecidableEq, Repr

/-- NewBlock from part_002 (the start time carries no consensus state and
is omitted). -/
def NewBlock (publicKey : String) (qs : QuorumSlice) (slot : Int) : Block :=
  ⟨slot, NewNominationState publicKey qs, NewBallotState publicKey qs,
    none, qs, publicKey⟩

/-- Block.Done: the block is externalized. -/
def Block.Done (b : Block) : Bool :=
  b.external ≠ none

/-- Block.AssertValid (part_002): both sub-states validated; the ballot
validation refreshes last. -/
def Block.AssertValid (b : Block) : Option Block :=
  match b.nState.AssertValid with
  | none => none
  | some _ =>
      match b.bState.AssertValid with
      | none => none
      | some bs => some { b with bState := bs }

/-- Block.Handle (part_002): ignore own messages; dispatch nominations to
the nomination state followed by MaybeUpdateValue, ballot messages to the
ballot state, and validate afterwards. -/
def Block.Handle (fuel : Nat) (b : Block) (sender : String) (message : Msg) :
    Option Block :=
  if sender = b.publicKey then some b
  else
    match message with
    | .nomination m =>
        match b.nState.Handle sender m with
        | none => none
        | some ns =>
            match b.bState.MaybeUpdateValue ns with
            | none => none
            | some r =>
                Block.AssertValid { b with nState := ns, bState := r.2 }
    | .prepare m =>
        match b.bState.Handle fuel sender (.prepare m) with
        | none => none
        | some bs => Block.AssertValid { b with bState := bs }
    | .confirm m =>
        match b.bState.Handle fuel sender (.confirm m) with
        | none => none
        | some bs => Block.AssertValid { b with bState := bs }
    | .externalize m =>
        match b.bState.Handle fuel sender (.externalize m) with
        | none => none
        | some bs => Block.AssertValid { b with bState := bs }
    | .info _ => Block.AssertValid b

/-- Modelled from the spec: the ValueStore trait as far as the Chain uses
it, a CanFinalize test plus the record of finalized values. -/
structure ValueStore where
  CanFinalize : SlotValue → Bool
  finalized : List SlotValue

/-- Modelled from the spec: Finalize records the finalized value. -/
def ValueStore.Finalize (vs : ValueStore) (v : SlotValue) : ValueStore :=
  { vs with finalized := vs.finalized ++ [v] }

/-- The Chain (chain.go): the current block, the history of externalized
blocks by slot, the slice, own id, and the value store. -/
structure Chain where
  current : Block
  history : List (Int × Block)
  D : QuorumSlice
  publicKey : String
  values : ValueStore

/-- NewEmptyChain from chain.go. -/
def NewEmptyChain (publicKey : String) (qs : QuorumSlice)
    (vs : ValueStore) : Chain :=
  ⟨NewBlock publicKey qs 1, [], qs, publicKey, vs⟩

/-- Chain.Handle (chain.go): ignore own messages; fatal on slot 0; answer
info requests from history; forward current-slot messages to the block and
finalize, archive and advance when the block is done and the store can
finalize; drop stale externalizes; otherwise reply with the stored
externalize for an old slot when available. Returns the optional response
message with the new chain; the outer `none` models fatal aborts. -/
def Chain.Handle (fuel : Nat) (c : Chain) (sender : String) (message : Msg) :
    Option (Option Msg × Chain) :=
  if sender = c.publicKey then some (none, c)
  else if message.slot = 0 then none
  else if message.isInfo then
    match lookupA c.history message.slot with
    | some blk => some (blk.external.map Msg.externalize, c)
    | none => some (none, c)
  else if message.slot = c.current.slot then
    match Block.Handle fuel c.current sender message with
    | none => none
    | some blk =>
        match blk.external with
        | some e =>
            if c.values.CanFinalize e.X then
              some (none,
                { c with
                  values := c.values.Finalize e.X,
                  history := updateA c.history c.current.slot blk,
                  current := NewBlock c.publicKey c.D (c.current.slot + 1) })
            else some (none, { c with current := blk })
        | none => some (none, { c with current := blk })
  else
    match message with
    | .externalize _ => some (none, c)
    | _ =>
        match lookupA c.history message.slot with
        | some oldBlock => some (oldBlock.external.map Msg.externalize, c)
        | none => some (none, c)

/-! ## Helper lemmas -/

theorem HasSlotValue_iff {l : List SlotValue} {v : SlotValue} :
    HasSlotValue l v = true ↔ v ∈ l := by
  simp only [HasSlotValue, Equal, List.any_eq_true, decide_eq_true_eq]
  constructor
  · rintro ⟨w, hw, rfl⟩; exact hw
  · intro h; exact ⟨v, h, rfl⟩

theorem lookupA_updateA_self {κ β : Type} [DecidableEq κ]
    (l : List (κ × β)) (k : κ) (v : β) :
    lookupA (updateA l k v) k = some v := by
  simp [updateA, lookupA]

/-! ## C6: the stale-pPrime early exit of MaybeAcceptAsPrepared -/

/-- C6: whenever pPrime is non-null with counter at least n,
MaybeAcceptAsPrepared (n, x) returns false and leaves the whole ballot
state unchanged, for every value x — in particular also when (n, x) is
incompatible with pPrime. -/
theorem maybeAcceptAsPrepared_stale_pPrime (s : BallotState) (n : Int)
    (x : SlotValue) (pp : Ballot) (hpp : s.pPrime = some pp)
    (hn : n ≤ pp.n) :
    s.MaybeAcceptAsPrepared n x = some (false, s) := by
  have hstale : (s.pPrime.any fun pb => decide (n ≤ pb.n)) = true := by
    simp [hpp, hn]
  unfold BallotState.MaybeAcceptAsPrepared
  simp [hstale, ite_self]

/-- C6 witness: a concrete prepare-phase state with pPrime at counter 3
rejects counter 2 for an incompatible value without any change. -/
theorem maybeAcceptAsPrepared_stale_pPrime_witness :
    (⟨Phase.Prepare, some ⟨4, ⟨["y"]⟩⟩, none, some ⟨4, ⟨["y"]⟩⟩,
        some ⟨3, ⟨["w"]⟩⟩, 0, 0, none, [], "s", ⟨["s"], 1⟩,
        0⟩ : BallotState).MaybeAcceptAsPrepared 2 ⟨["x"]⟩ =
      some (false,
        ⟨Phase.Prepare, some ⟨4, ⟨["y"]⟩⟩, none, some ⟨4, ⟨["y"]⟩⟩,
          some ⟨3, ⟨["w"]⟩⟩, 0, 0, none, [], "s", ⟨["s"], 1⟩, 0⟩) :=
  maybeAcceptAsPrepared_stale_pPrime _ 2 _ ⟨3, ⟨["w"]⟩⟩ rfl (by decide)

/-! ## C10: the zero ballot is never accepted as prepared -/

/-- C10: for every state and value, MaybeAcceptAsPrepared with counter 0
returns false and changes nothing, and (whenever hn is non-negative, as in
every reachable state) so does MaybeConfirmAsPrepared with counter 0; so
the absent p and pPrime fields of a prepare message, encoded with counter
0 and investigated by Handle, never make the zero ballot accepted or
confirmed as prepared. -/
theorem zero_ballot_never_prepared (s : BallotState) (x : SlotValue) :
    s.MaybeAcceptAsPrepared 0 x = some (false, s) ∧
    (0 ≤ s.hn → s.MaybeConfirmAsPrepared 0 x = some (false, s)) := by
  constructor
  · unfold BallotState.MaybeAcceptAsPrepared
    simp [ite_self]
  · intro h
    unfold BallotState.MaybeConfirmAsPrepared
    split <;> rfl

/-- C10 witness: the fresh ballot state ignores the zero ballot. -/
theorem zero_ballot_never_prepared_witness :
    (NewBallotState "s" ⟨["s"], 1⟩).MaybeAcceptAsPrepared 0 ⟨["x"]⟩ =
      some (false, NewBallotState "s" ⟨["s"], 1⟩) ∧
    (NewBallotState "s" ⟨["s"], 1⟩).MaybeConfirmAsPrepared 0 ⟨["x"]⟩ =
      some (false, NewBallotState "s" ⟨["s"], 1⟩) :=
  ⟨(zero_ballot_never_prepared _ _).1,
    (zero_ballot_never_prepared (NewBallotState "s" ⟨["s"], 1⟩)
      ⟨["x"]⟩).2 (by decide)⟩

/-! ## C7: the contradictory confirm-as-prepared is fatal -/

/-- C7: in the Prepare phase with hn below n, when a quorum accepts (n, x)
as prepared while cn is positive and x differs from the value of b,
MaybeConfirmAsPrepared aborts with an invariant violation (modelled by
`none`) instead of updating the state. -/
theorem maybeConfirmAsPrepared_contradiction_fatal (s : BallotState)
    (n : Int) (x : SlotValue) (bb : Ballot) (hphase : s.phase = .Prepare)
    (hhn : s.hn < n)
    (hq : MeetsQuorum s.QuorumSliceOf s.publicKey
      (s.confirmPreparedSet n x) = true)
    (hcn : 0 < s.cn) (hb : s.b = some bb) (hx : Equal x bb.x = false) :
    s.MaybeConfirmAsPrepared n x = none := by
  unfold BallotState.MaybeConfirmAsPrepared
  rw [if_neg (by simp [hphase]), if_neg (by omega), if_neg (by simp [hq]),
    if_pos hcn, hb]
  simp [hx]

/-- C7 witness: a concrete single-node state voting to commit (1, y)
while a quorum confirms (1, x) as prepared hits the fatal assertion. -/
theorem maybeConfirmAsPrepared_contradiction_fatal_witness :
    (⟨Phase.Prepare, some ⟨1, ⟨["y"]⟩⟩, none, some ⟨1, ⟨["x"]⟩⟩, none, 1, 0,
        none, [], "s", ⟨["s"], 1⟩, 0⟩ : BallotState).MaybeConfirmAsPrepared
      1 ⟨["x"]⟩ = none :=
  maybeConfirmAsPrepared_contradiction_fatal _ 1 ⟨["x"]⟩ ⟨1, ⟨["y"]⟩⟩ rfl
    (by decide) (by decide) (by decide) rfl (by decide)

/-! ## C5: the accepting branch of MaybeAcceptAsCommitted -/

/-- C5: whenever MaybeAcceptAsCommitted (n, x) runs outside the
Externalize phase, outside an already-accepted Confirm range, and a
quorum voted or accepted the commit or a blocking set accepted it, the
call returns true and the phase becomes Confirm; when b was null or held
a different value, b becomes (n, x) with cn = hn = n and z = x; otherwise
[cn, hn] becomes the smallest range containing the old endpoints
and n. -/
theorem maybeAcceptAsCommitted_accepts (s : BallotState) (n : Int)
    (x : SlotValue) (h1 : s.phase ≠ .Externalize)
    (h2 : ¬(s.phase = .Confirm ∧ s.cn ≤ n ∧ n ≤ s.hn))
    (h3 : MeetsQuorum s.QuorumSliceOf s.publicKey (s.commitSets n x).1 =
        true ∨
      s.D.BlockedBy (s.commitSets n x).2 = true) :
    (s.MaybeAcceptAsCommitted n x).1 = true ∧
    (s.MaybeAcceptAsCommitted n x).2.phase = .Confirm ∧
    ((s.b.any fun bb => Equal bb.x x) = false →
      (s.MaybeAcceptAsCommitted n x).2.b = some ⟨n, x⟩ ∧
      (s.MaybeAcceptAsCommitted n x).2.cn = n ∧
      (s.MaybeAcceptAsCommitted n x).2.hn = n ∧
      (s.MaybeAcceptAsCommitted n x).2.z = some x) ∧
    ((s.b.any fun bb => Equal bb.x x) = true →
      (s.MaybeAcceptAsCommitted n x).2.cn = min s.cn n ∧
      (s.MaybeAcceptAsCommitted n x).2.hn = max s.hn n ∧
      (s.MaybeAcceptAsCommitted n x).2.b = s.b ∧
      (s.MaybeAcceptAsCommitted n x).2.z = s.z) := by
  have hq : (!MeetsQuorum s.QuorumSliceOf s.publicKey (s.commitSets n x).1
      && !s.D.BlockedBy (s.commitSets n x).2) = false := by
    rcases h3 with h | h <;> simp [h]
  unfold BallotState.MaybeAcceptAsCommitted
  rw [if_neg h1, if_neg h2]
  cases hb : (s.b.any fun bb => Equal bb.x x) <;>
    simp [hq, hb, min_def, max_def] <;> omega

/-- C5 witness: three nodes with threshold two; two confirm messages for
the commit of (1, x) form a blocking set, so the state in the Prepare
phase already voting to commit (1, x) accepts it and moves to Confirm
keeping the range [1, 1]. -/
theorem maybeAcceptAsCommitted_accepts_witness :
    ((⟨Phase.Prepare, some ⟨1, ⟨["x"]⟩⟩, none, none, none, 1, 1,
        some ⟨["x"]⟩,
        [("a", .confirm ⟨1, ⟨["x"]⟩, 1, 1, 1, ⟨["s", "a", "b"], 2⟩⟩),
         ("b", .confirm ⟨1, ⟨["x"]⟩, 1, 1, 1, ⟨["s", "a", "b"], 2⟩⟩)],
        "s", ⟨["s", "a", "b"], 2⟩,
        2⟩ : BallotState).MaybeAcceptAsCommitted 1 ⟨["x"]⟩).1 = true ∧
    ((⟨Phase.Prepare, some ⟨1, ⟨["x"]⟩⟩, none, none, none, 1, 1,
        some ⟨["x"]⟩,
        [("a", .confirm ⟨1, ⟨["x"]⟩, 1, 1, 1, ⟨["s", "a", "b"], 2⟩⟩),
         ("b", .confirm ⟨1, ⟨["x"]⟩, 1, 1, 1, ⟨["s", "a", "b"], 2⟩⟩)],
        "s", ⟨["s", "a", "b"], 2⟩,
        2⟩ : BallotState).MaybeAcceptAsCommitted 1 ⟨["x"]⟩).2.phase =
      Phase.Confirm := by
  have h := maybeAcceptAsCommitted_accepts
    ⟨Phase.Prepare, some ⟨1, ⟨["x"]⟩⟩, none, none, none, 1, 1, some ⟨["x"]⟩,
      [("a", .confirm ⟨1, ⟨["x"]⟩, 1, 1, 1, ⟨["s", "a", "b"], 2⟩⟩),
       ("b", .confirm ⟨1, ⟨["x"]⟩, 1, 1, 1, ⟨["s", "a", "b"], 2⟩⟩)],
      "s", ⟨["s", "a", "b"], 2⟩, 2⟩ 1 ⟨["x"]⟩ (by decide) (by decide)
    (Or.inr (by decide))
  exact ⟨h.1, h.2.1⟩

/-! ## C8: PredictValue -/

/-- C8 (amended): PredictValue returns combine of Z when Z is non-empty,
else combine of Y when Y is non-empty, else combine of X when X is
non-empty, and fails (InvariantViolation, modelled by none) exactly when
X, Y and Z are all empty. This failure condition is not equivalent to
HasNomination being false, since Y can be non-empty while X is empty. -/
theorem predictValue_branches (s : NominationState) :
    (0 < s.Z.length → s.PredictValue = some (CombineSlice s.Z)) ∧
    (s.Z = [] → 0 < s.Y.length → s.PredictValue = some (CombineSlice s.Y)) ∧
    (s.Z = [] → s.Y = [] → 0 < s.X.length →
      s.PredictValue = some (CombineSlice s.X)) ∧
    (s.PredictValue = none ↔ s.X = [] ∧ s.Y = [] ∧ s.Z = []) := by
  unfold NominationState.PredictValue
  refine ⟨fun h => by rw [if_pos h], fun hz hy => ?_, fun hz hy hx => ?_, ?_⟩
  · rw [if_neg (by simp [hz]), if_pos hy]
  · rw [if_neg (by simp [hz]), if_neg (by simp [hy]), if_pos hx]
  · constructor
    · intro h
      split_ifs at h with hz hy hx
      all_goals first
        | exact Option.noConfusion h
        | (refine ⟨?_, ?_, ?_⟩ <;> rw [← List.length_eq_zero] <;> omega)
    · rintro ⟨hX, hY, hZ⟩
      rw [if_neg (by simp [hZ]), if_neg (by simp [hY]),
        if_neg (by simp [hX])]

/-- C8 witness: concrete states exercising the Z branch, the Y branch,
the X branch and the failure case. -/
theorem predictValue_branches_witness :
    (⟨[⟨["x"]⟩], [⟨["y"]⟩], [⟨["z"]⟩], [], "s", ⟨["s"], 1⟩,
        0⟩ : NominationState).PredictValue = some (CombineSlice [⟨["z"]⟩]) ∧
    (⟨[⟨["x"]⟩], [⟨["y"]⟩], [], [], "s", ⟨["s"], 1⟩,
        0⟩ : NominationState).PredictValue = some (CombineSlice [⟨["y"]⟩]) ∧
    (⟨[⟨["x"]⟩], [], [], [], "s", ⟨["s"], 1⟩,
        0⟩ : NominationState).PredictValue = some (CombineSlice [⟨["x"]⟩]) ∧
    (NewNominationState "s" ⟨["s"], 1⟩).PredictValue = none :=
  ⟨(predictValue_branches _).1 (by decide),
    (predictValue_branches _).2.1 rfl (by decide),
    (predictValue_branches _).2.2.1 rfl rfl (by decide),
    (predictValue_branches _).2.2.2.mpr ⟨rfl, rfl, rfl⟩⟩

/-- C8 counterexample: two peers whose messages accept the nomination of
v without nominating it drive a fresh state, through Handle, to Y = [v]
with X empty; there HasNomination is false while PredictValue succeeds,
so failing is not equivalent to HasNomination being false. -/
theorem predictValue_hasNomination_counterexample :
    ((NominationState.Handle (NewNominationState "s" ⟨["s", "a", "b"], 2⟩)
        "a" ⟨1, [], [⟨["v"]⟩], ⟨["s", "a", "b"], 2⟩⟩).bind fun t =>
        t.Handle "b" ⟨1, [], [⟨["v"]⟩], ⟨["s", "a", "b"], 2⟩⟩).map
      (fun t => (t.HasNomination, t.PredictValue.isSome,
        decide (t.PredictValue = none ↔ t.HasNomination = false))) =
      some (false, true, false) := by
  decide

/-! ## Frame lemmas for the prepared-acceptance steps -/

theorem abortForPrepared_frame (s : BallotState) (n : Int) (x : SlotValue) :
    (abortForPrepared s n x).hn = s.hn ∧
    (abortForPrepared s n x).phase = s.phase ∧
    (abortForPrepared s n x).M = s.M := by
  unfold abortForPrepared
  split <;> exact ⟨rfl, rfl, rfl⟩

theorem updatePPrepared_frame (s1 s2 : BallotState) (n : Int)
    (x : SlotValue) (h : updatePPrepared s1 n x = some s2) :
    s2.hn = s1.hn ∧ s2.cn = s1.cn ∧ s2.phase = s1.phase ∧ s2.M = s1.M := by
  unfold updatePPrepared at h
  repeat' split at h
  all_goals try exact Option.noConfusion h
  all_goals injection h with h
  all_goals subst h
  all_goals exact ⟨rfl, rfl, rfl, rfl⟩

theorem abandonContradictedCommit_frame (s : BallotState) :
    (abandonContradictedCommit s).hn = s.hn ∧
    (abandonContradictedCommit s).phase = s.phase ∧
    (abandonContradictedCommit s).M = s.M := by
  unfold abandonContradictedCommit
  split <;> exact ⟨rfl, rfl, rfl⟩

theorem maybeAcceptAsPrepared_hn (s : BallotState) (n : Int)
    (x : SlotValue) (r : Bool × BallotState)
    (h : s.MaybeAcceptAsPrepared n x = some r) : r.2.hn = s.hn := by
  unfold BallotState.MaybeAcceptAsPrepared at h
  repeat' split at h
  all_goals try (injection h with h; subst h; rfl)
  simp only [] at h
  split at h
  · injection h with h; subst h; rfl
  rw [Option.map_eq_some'] at h
  obtain ⟨s2, hs2, hr⟩ := h
  have h1 := (abandonContradictedCommit_frame s2).1
  have h2 := (updatePPrepared_frame _ _ _ _ hs2).1
  have h3 := (abortForPrepared_frame s n x).1
  rw [← hr]
  simpa [h1, h2] using h3

theorem confirmPreparedUpdate_hn (s : BallotState) (n : Int)
    (x : SlotValue) : (confirmPreparedUpdate s n x).hn = n := by
  unfold confirmPreparedUpdate
  simp only []
  repeat' split
  all_goals rfl

theorem maybeConfirmAsPrepared_hn (s : BallotState) (n : Int)
    (x : SlotValue) (r : Bool × BallotState)
    (h : s.MaybeConfirmAsPrepared n x = some r) : s.hn ≤ r.2.hn := by
  unfold BallotState.MaybeConfirmAsPrepared at h
  split at h
  · injection h with h; subst h; exact le_refl _
  split at h
  · injection h with h; subst h; exact le_refl _
  rename_i hle
  simp only [] at h
  by_cases hq : (!MeetsQuorum s.QuorumSliceOf s.publicKey
      (s.confirmPreparedSet n x)) = true
  · rw [if_pos hq] at h
    injection h with h; subst h; exact le_refl _
  · rw [if_neg hq, Option.map_eq_some'] at h
    obtain ⟨u, hu, hr⟩ := h
    rw [← hr]
    simp only [confirmPreparedUpdate_hn]
    omega

theorem maybeAcceptAsCommitted_hn_compatible (s : BallotState) (n : Int)
    (x : SlotValue) (hb : (s.b.any fun bb => Equal bb.x x) = true) :
    s.hn ≤ (s.MaybeAcceptAsCommitted n x).2.hn := by
  unfold BallotState.MaybeAcceptAsCommitted
  simp only []
  split
  · exact le_refl _
  split
  · exact le_refl _
  split
  · exact le_refl _
  dsimp only
  split <;> omega

theorem maybeConfirmAsCommitted_hn_externalize (s : BallotState) (n : Int)
    (x : SlotValue) (hp : s.phase = .Externalize) :
    s.hn ≤ (s.MaybeConfirmAsCommitted n x).2.hn := by
  unfold BallotState.MaybeConfirmAsCommitted
  simp only []
  rw [if_neg (by simp [hp])]
  split
  · exact le_refl _
  split
  · exact le_refl _
  split
  · exact le_refl _
  rw [if_neg (by simp [hp])]
  dsimp only
  split <;> omega

theorem maybeNextBallot_hn (s : BallotState) :
    s.MaybeNextBallot.2.hn = s.hn := by
  unfold BallotState.MaybeNextBallot
  split
  · simp only []
    split <;> rfl
  · rfl

theorem maybeInitializeValue_hn (s : BallotState) (v : SlotValue) :
    (s.MaybeInitializeValue v).2.hn = s.hn := by
  unfold BallotState.MaybeInitializeValue
  split
  · rfl
  · simp only []
    split <;> rfl

theorem maybeUpdateValue_hn (s : BallotState) (ns : NominationState)
    (r : Bool × BallotState) (h : s.MaybeUpdateValue ns = some r) :
    r.2.hn = s.hn := by
  unfold BallotState.MaybeUpdateValue at h
  repeat' split at h
  all_goals try exact Option.noConfusion h
  all_goals try (injection h with h; subst h; rfl)
  simp only [] at h
  split at h
  all_goals injection h with h
  all_goals subst h
  all_goals rfl

/-! ## C1: hn is not monotonically non-decreasing -/

/-- The three-node slice used in the hn-decrease scenario. -/
def scnQs : QuorumSlice := ⟨["s", "a", "b"], 2⟩

/-- The prepare message that peers a and b send first: ballot (5, y),
accepted prepared (5, y). -/
def scnPrep : PrepareMessage :=
  ⟨1, 5, ⟨["y"]⟩, 5, ⟨["y"]⟩, 0, ⟨[]⟩, 0, 0, scnQs⟩

/-- The confirm message that peers a and b send next: value x, committed
range [2, 2], accepted prepared up to 2. -/
def scnConf : ConfirmMessage := ⟨1, ⟨["x"]⟩, 2, 2, 2, scnQs⟩

/-- The state of node s after handling the prepare from a and b and the
confirm from a: b = (5, y), cn = hn = 5. -/
def scnState3 : Option BallotState :=
  (((NewBallotState "s" scnQs).Handle 10 "a" (.prepare scnPrep)).bind
      fun t => t.Handle 10 "b" (.prepare scnPrep)).bind
    fun t => t.Handle 10 "a" (.confirm scnConf)

/-- The state of node s after also handling the confirm from b. -/
def scnState4 : Option BallotState :=
  scnState3.bind fun t => t.Handle 10 "b" (.confirm scnConf)

/-- C1 counterexample: after three handled messages hn is 5, and the
fourth handled message (the confirm from b, whose blocking set makes s
accept the commit of (2, x) with x incompatible with b) drops hn to 2; in
the same situation, MaybeAcceptAsPrepared keeps hn at 5 and the following
MaybeAcceptAsCommitted alone sets it to 2. So hn is not monotonically
non-decreasing under BallotState operations. -/
theorem hn_not_monotonic_counterexample :
    scnState3.map (fun t => t.hn) = some 5 ∧
    scnState4.map (fun t => t.hn) = some 2 ∧
    scnState3.map (fun t =>
        (({ t with
              M := updateA t.M "b" (BallotMessage.confirm scnConf),
              received := t.received + 1 } :
            BallotState).MaybeAcceptAsPrepared 2 ⟨["x"]⟩).map
          fun r => (r.2.hn, (r.2.MaybeAcceptAsCommitted 2 ⟨["x"]⟩).2.hn)) =
      some (some (5, 2)) := by
  refine ⟨by decide, by decide, by decide⟩

/-- C1 (amended): hn never decreases under MaybeAcceptAsPrepared,
MaybeConfirmAsPrepared, MaybeNextBallot, MaybeInitializeValue and
MaybeUpdateValue; MaybeAcceptAsCommitted keeps hn non-decreasing whenever
b is non-null with the committed value, and MaybeConfirmAsCommitted does
so in the Externalize phase; in the remaining cases (accepting a commit
for a different value, or the Confirm-to-Externalize transition) those
two operations set hn to the commit counter n, which can be smaller than
the previous hn. -/
theorem hn_monotonic_outside_commit_collapse :
    (∀ (s : BallotState) (n : Int) (x : SlotValue) (r : Bool × BallotState),
      s.MaybeAcceptAsPrepared n x = some r → s.hn ≤ r.2.hn) ∧
    (∀ (s : BallotState) (n : Int) (x : SlotValue) (r : Bool × BallotState),
      s.MaybeConfirmAsPrepared n x = some r → s.hn ≤ r.2.hn) ∧
    (∀ (s : BallotState) (n : Int) (x : SlotValue),
      (s.b.any fun bb => Equal bb.x x) = true →
        s.hn ≤ (s.MaybeAcceptAsCommitted n x).2.hn) ∧
    (∀ (s : BallotState) (n : Int) (x : SlotValue),
      s.phase = .Externalize → s.hn ≤ (s.MaybeConfirmAsCommitted n x).2.hn) ∧
    (∀ s : BallotState, s.MaybeNextBallot.2.hn = s.hn) ∧
    (∀ (s : BallotState) (v : SlotValue),
      (s.MaybeInitializeValue v).2.hn = s.hn) ∧
    (∀ (s : BallotState) (ns : NominationState) (r : Bool × BallotState),
      s.MaybeUpdateValue ns = some r → r.2.hn = s.hn) :=
  ⟨fun s n x r h => le_of_eq (maybeAcceptAsPrepared_hn s n x r h).symm,
    maybeConfirmAsPrepared_hn,
    maybeAcceptAsCommitted_hn_compatible,
    maybeConfirmAsCommitted_hn_externalize,
    maybeNextBallot_hn,
    maybeInitializeValue_hn,
    maybeUpdateValue_hn⟩

/-- C1 amended-claim witness: the non-decreasing statements applied at a
concrete state: a Confirm-phase state with b = (1, x) keeps hn under
MaybeAcceptAsCommitted of (3, x), and the prepared steps leave hn of the
fresh state unchanged. -/
theorem hn_monotonic_outside_commit_collapse_witness :
    (3 : Int) ≤
      ((⟨Phase.Confirm, some ⟨1, ⟨["x"]⟩⟩, none, none, none, 1, 3,
          some ⟨["x"]⟩, [], "s", ⟨["s"], 1⟩,
          0⟩ : BallotState).MaybeAcceptAsCommitted 5 ⟨["x"]⟩).2.hn ∧
    (NewBallotState "s" ⟨["s"], 1⟩).hn ≤
      ((NewBallotState "s" ⟨["s"], 1⟩).MaybeNextBallot).2.hn :=
  ⟨hn_monotonic_outside_commit_collapse.2.2.1
      ⟨Phase.Confirm, some ⟨1, ⟨["x"]⟩⟩, none, none, none, 1, 3,
        some ⟨["x"]⟩, [], "s", ⟨["s"], 1⟩, 0⟩ 5 ⟨["x"]⟩ (by decide),
    le_of_eq (hn_monotonic_outside_commit_collapse.2.2.2.2.1
      (NewBallotState "s" ⟨["s"], 1⟩)).symm⟩

/-! ## Reflexivity of the message comparison -/

theorem cmpInt_self (a : Int) : cmpInt a a = 0 := by
  simp [cmpInt]

theorem cmpStr_self (a : String) : cmpStr a a = 0 := by
  simp [cmpStr]

theorem cmpStrList_self (l : List String) : cmpStrList l l = 0 := by
  induction l with
  | nil => rfl
  | cons a as ih => simp [cmpStrList, cmpLex, cmpStr_self, ih]

theorem cmpSlotValue_self (v : SlotValue) : cmpSlotValue v v = 0 :=
  cmpStrList_self _

theorem Compare_self (m : BallotMessage) : Compare m m = 0 := by
  cases m <;> simp [Compare, cmpLex, cmpInt_self, cmpSlotValue_self]

/-! ## The ballot operations never touch the peer-message map -/

theorem maybeAcceptAsPrepared_M (s : BallotState) (n : Int) (x : SlotValue)
    (r : Bool × BallotState) (h : s.MaybeAcceptAsPrepared n x = some r) :
    r.2.M = s.M := by
  unfold BallotState.MaybeAcceptAsPrepared at h
  repeat' split at h
  all_goals try (injection h with h; subst h; rfl)
  simp only [] at h
  split at h
  · injection h with h; subst h; rfl
  rw [Option.map_eq_some'] at h
  obtain ⟨s2, hs2, hr⟩ := h
  have h1 := (abandonContradictedCommit_frame s2).2.2
  have h2 := (updatePPrepared_frame _ _ _ _ hs2).2.2.2
  have h3 := (abortForPrepared_frame s n x).2.2
  rw [← hr]
  simpa [h1, h2] using h3

theorem confirmPreparedUpdate_M (s : BallotState) (n : Int)
    (x : SlotValue) : (confirmPreparedUpdate s n x).M = s.M := by
  unfold confirmPreparedUpdate
  simp only []
  repeat' split
  all_goals rfl

theorem maybeConfirmAsPrepared_M (s : BallotState) (n : Int)
    (x : SlotValue) (r : Bool × BallotState)
    (h : s.MaybeConfirmAsPrepared n x = some r) : r.2.M = s.M := by
  unfold BallotState.MaybeConfirmAsPrepared at h
  split at h
  · injection h with h; subst h; rfl
  split at h
  · injection h with h; subst h; rfl
  simp only [] at h
  by_cases hq : (!MeetsQuorum s.QuorumSliceOf s.publicKey
      (s.confirmPreparedSet n x)) = true
  · rw [if_pos hq] at h
    injection h with h; subst h; rfl
  · rw [if_neg hq, Option.map_eq_some'] at h
    obtain ⟨u, hu, hr⟩ := h
    rw [← hr]
    exact confirmPreparedUpdate_M s n x

theorem maybeAcceptAsCommitted_M (s : BallotState) (n : Int)
    (x : SlotValue) : (s.MaybeAcceptAsCommitted n x).2.M = s.M := by
  unfold BallotState.MaybeAcceptAsCommitted
  simp only []
  repeat' split
  all_goals rfl

theorem maybeConfirmAsCommitted_M (s : BallotState) (n : Int)
    (x : SlotValue) : (s.MaybeConfirmAsCommitted n x).2.M = s.M := by
  unfold BallotState.MaybeConfirmAsCommitted
  simp only []
  repeat' split
  all_goals rfl

theorem maybeNextBallot_M (s : BallotState) :
    s.MaybeNextBallot.2.M = s.M := by
  unfold BallotState.MaybeNextBallot
  split
  · simp only []
    split <;> rfl
  · rfl

theorem investigate_M (s : BallotState) (n : Int) (x : SlotValue)
    (s' : BallotState) (h : s.Investigate n x = some s') : s'.M = s.M := by
  unfold BallotState.Investigate at h
  split at h
  · exact Option.noConfusion h
  rename_i r1 h1
  split at h
  · exact Option.noConfusion h
  rename_i r2 h2
  injection h with h
  subst h
  rw [maybeConfirmAsCommitted_M, maybeAcceptAsCommitted_M,
    maybeConfirmAsPrepared_M _ _ _ _ h2, maybeAcceptAsPrepared_M _ _ _ _ h1]

theorem investigateRange_M (x : SlotValue) (cn : Int) :
    ∀ (l : List Nat) (s s' : BallotState),
      investigateRange x cn l s = some s' → s'.M = s.M := by
  intro l
  induction l with
  | nil =>
      intro s s' h
      injection h with h
      subst h
      rfl
  | cons a as ih =>
      intro s s' h
      unfold investigateRange at h
      split at h
      · exact Option.noConfusion h
      rename_i s1 h1
      rw [ih s1 s' h, investigate_M _ _ _ _ h1]

theorem investigateMessage_M (s : BallotState) (m : BallotMessage)
    (s' : BallotState) (h : s.investigateMessage m = some s') :
    s'.M = s.M := by
  unfold BallotState.investigateMessage at h
  match m with
  | .prepare pm =>
      simp only [] at h
      split at h
      · exact Option.noConfusion h
      rename_i s1 h1
      split at h
      · exact Option.noConfusion h
      rename_i s2 h2
      rw [investigate_M _ _ _ _ h, investigate_M _ _ _ _ h2,
        investigate_M _ _ _ _ h1]
  | .confirm cm => exact investigate_M _ _ _ _ h
  | .externalize em => exact investigateRange_M _ _ _ _ _ h

theorem ballotLoop_M : ∀ (fuel : Nat) (m : BallotMessage)
    (s s' : BallotState), ballotLoop m fuel s = some s' → s'.M = s.M := by
  intro fuel
  induction fuel with
  | zero => intro m s s' h; exact Option.noConfusion h
  | succ f ih =>
      intro m s s' h
      unfold ballotLoop at h
      split at h
      · exact Option.noConfusion h
      rename_i s1 h1
      have hM1 := investigateMessage_M _ _ _ h1
      simp only [] at h
      split at h
      · rw [ih m _ _ h, maybeNextBallot_M, hM1]
      · injection h with h
        subst h
        rw [maybeNextBallot_M, hM1]

/-! ## The nomination advance never touches X or N -/

theorem maybeAdvance_XN (s : NominationState) (v : SlotValue)
    (r : Bool × NominationState) (h : s.MaybeAdvance v = some r) :
    r.2.X = s.X ∧ r.2.N = s.N ∧ r.2.publicKey = s.publicKey ∧
    r.2.D = s.D ∧ r.2.received = s.received := by
  unfold NominationState.MaybeAdvance at h
  simp only [] at h
  repeat' split at h
  all_goals try exact Option.noConfusion h
  all_goals injection h with h
  all_goals subst h
  all_goals exact ⟨rfl, rfl, rfl, rfl, rfl⟩

theorem advanceAll_XN : ∀ (l : List SlotValue) (s s' : NominationState),
    advanceAll l s = some s' →
    s'.X = s.X ∧ s'.N = s.N ∧ s'.publicKey = s.publicKey ∧
    s'.D = s.D ∧ s'.received = s.received := by
  intro l
  induction l with
  | nil =>
      intro s s' h
      injection h with h
      subst h
      exact ⟨rfl, rfl, rfl, rfl, rfl⟩
  | cons a as ih =>
      intro s s' h
      unfold advanceAll at h
      split at h
      · exact Option.noConfusion h
      rename_i r1 hr1
      have ha := maybeAdvance_XN _ _ _ hr1
      have hb := ih r1.2 s' h
      exact ⟨hb.1.trans ha.1, hb.2.1.trans ha.2.1,
        hb.2.2.1.trans ha.2.2.1, hb.2.2.2.1.trans ha.2.2.2.1,
        hb.2.2.2.2.trans ha.2.2.2.2⟩

/-! ## C4: Handle is idempotent and discards weaker messages -/

theorem nomHandle_idem (s : NominationState) (node : String)
    (m : NominationMessage) (s' : NominationState)
    (h : s.Handle node m = some s') : s'.Handle node m = some s' := by
  unfold NominationState.Handle at h ⊢
  simp only [] at h ⊢
  by_cases hc1 : m.Nom.length <
      ((lookupA s.N node).map fun o => o.Nom.length).getD 0
  · rw [if_pos hc1] at h
    injection h with h
    subst h
    rw [if_pos hc1]
  rw [if_neg hc1] at h
  by_cases hc2 : m.Acc.length <
      ((lookupA s.N node).map fun o => o.Acc.length).getD 0
  · rw [if_pos hc2] at h
    injection h with h
    subst h
    rw [if_neg hc1, if_pos hc2]
  rw [if_neg hc2] at h
  by_cases hc3 : m.Nom.length =
      ((lookupA s.N node).map fun o => o.Nom.length).getD 0 ∧
      m.Acc.length = ((lookupA s.N node).map fun o => o.Acc.length).getD 0
  · rw [if_pos hc3] at h
    injection h with h
    subst h
    rw [if_neg hc1, if_neg hc2, if_pos hc3]
  · rw [if_neg hc3] at h
    have hx := advanceAll_XN _ _ _ h
    have hl : lookupA s'.N node = some m := by
      rw [hx.2.1]
      exact lookupA_updateA_self _ _ _
    simp [hl]

theorem nomHandle_weaker_noop (s : NominationState) (node : String)
    (m old : NominationMessage) (hl : lookupA s.N node = some old)
    (h1 : m.Nom.length ≤ old.Nom.length)
    (h2 : m.Acc.length ≤ old.Acc.length) : s.Handle node m = some s := by
  unfold NominationState.Handle
  simp only [hl, Option.map_some', Option.getD_some]
  split_ifs <;> first | rfl | omega

theorem ballotHandle_idem (fuel fuel' : Nat) (s : BallotState)
    (node : String) (m : BallotMessage) (s' : BallotState)
    (h : BallotState.Handle fuel s node m = some s') :
    BallotState.Handle fuel' s' node m = some s' := by
  unfold BallotState.Handle at h
  cases hl : lookupA s.M node with
  | some old =>
      simp only [hl] at h
      by_cases hc : 0 ≤ Compare old m
      · rw [if_pos hc] at h
        injection h with h
        subst h
        unfold BallotState.Handle
        simp only [hl]
        rw [if_pos hc]
      · rw [if_neg hc] at h
        have hM : s'.M = updateA s.M node m := ballotLoop_M _ _ _ _ h
        have hl' : lookupA s'.M node = some m := by
          rw [hM]
          exact lookupA_updateA_self _ _ _
        unfold BallotState.Handle
        simp only [hl']
        rw [if_pos (Compare_self m).ge]
  | none =>
      simp only [hl] at h
      have hM : s'.M = updateA s.M node m := ballotLoop_M _ _ _ _ h
      have hl' : lookupA s'.M node = some m := by
        rw [hM]
        exact lookupA_updateA_self _ _ _
      unfold BallotState.Handle
      simp only [hl']
      rw [if_pos (Compare_self m).ge]

theorem ballotHandle_weaker_noop (fuel : Nat) (s : BallotState)
    (node : String) (m old : BallotMessage)
    (hl : lookupA s.M node = some old) (hc : 0 ≤ Compare old m) :
    BallotState.Handle fuel s node m = some s := by
  unfold BallotState.Handle
  simp only [hl]
  rw [if_pos hc]

/-- C4: Handle is idempotent and discards weaker messages. For the
nomination state: handling the same message again after a successful
Handle leaves the state exactly as it was, and a message from a sender
whose stored message already has at least as long Nom and Acc lists is a
complete no-op. For the ballot state: handling the same message again
after a successful Handle (under any fuel) leaves the state exactly as it
was, and a message comparing less-or-equal to the stored one from that
sender is a complete no-op. -/
theorem handle_idempotent_discards_weaker :
    (∀ (s : NominationState) (node : String) (m : NominationMessage)
      (s' : NominationState),
      s.Handle node m = some s' → s'.Handle node m = some s') ∧
    (∀ (s : NominationState) (node : String) (m old : NominationMessage),
      lookupA s.N node = some old → m.Nom.length ≤ old.Nom.length →
      m.Acc.length ≤ old.Acc.length → s.Handle node m = some s) ∧
    (∀ (fuel fuel' : Nat) (s : BallotState) (node : String)
      (m : BallotMessage) (s' : BallotState),
      BallotState.Handle fuel s node m = some s' →
      BallotState.Handle fuel' s' node m = some s') ∧
    (∀ (fuel : Nat) (s : BallotState) (node : String)
      (m old : BallotMessage),
      lookupA s.M node = some old → 0 ≤ Compare old m →
      BallotState.Handle fuel s node m = some s) :=
  ⟨nomHandle_idem, nomHandle_weaker_noop, ballotHandle_idem,
    ballotHandle_weaker_noop⟩

/-- C4 witness: re-delivery of a processed nomination message, an
equal-length nomination message, a processed prepare message and an
equal prepare message are all no-ops at concrete states. -/
theorem handle_idempotent_discards_weaker_witness :
    (⟨[⟨["v"]⟩], [⟨["v"]⟩], [⟨["v"]⟩],
        [("a", ⟨1, [⟨["v"]⟩], [], ⟨["s", "a"], 1⟩⟩)], "s", ⟨["s", "a"], 1⟩,
        1⟩ : NominationState).Handle "a" ⟨1, [⟨["v"]⟩], [], ⟨["s", "a"], 1⟩⟩ =
      some ⟨[⟨["v"]⟩], [⟨["v"]⟩], [⟨["v"]⟩],
        [("a", ⟨1, [⟨["v"]⟩], [], ⟨["s", "a"], 1⟩⟩)], "s", ⟨["s", "a"], 1⟩,
        1⟩ ∧
    (⟨[⟨["v"]⟩], [⟨["v"]⟩], [⟨["v"]⟩],
        [("a", ⟨1, [⟨["v"]⟩], [], ⟨["s", "a"], 1⟩⟩)], "s", ⟨["s", "a"], 1⟩,
        1⟩ : NominationState).Handle "a" ⟨1, [], [], ⟨["s", "a"], 1⟩⟩ =
      some ⟨[⟨["v"]⟩], [⟨["v"]⟩], [⟨["v"]⟩],
        [("a", ⟨1, [⟨["v"]⟩], [], ⟨["s", "a"], 1⟩⟩)], "s", ⟨["s", "a"], 1⟩,
        1⟩ ∧
    BallotState.Handle 7
      ⟨Phase.Prepare, none, none, none, none, 0, 0, none,
        [("a", .prepare ⟨1, 1, ⟨["v"]⟩, 0, ⟨[]⟩, 0, ⟨[]⟩, 0, 0,
          ⟨["s"], 1⟩⟩)], "s", ⟨["s"], 1⟩, 1⟩ "a"
      (.prepare ⟨1, 1, ⟨["v"]⟩, 0, ⟨[]⟩, 0, ⟨[]⟩, 0, 0, ⟨["s"], 1⟩⟩) =
      some ⟨Phase.Prepare, none, none, none, none, 0, 0, none,
        [("a", .prepare ⟨1, 1, ⟨["v"]⟩, 0, ⟨[]⟩, 0, ⟨[]⟩, 0, 0,
          ⟨["s"], 1⟩⟩)], "s", ⟨["s"], 1⟩, 1⟩ :=
  ⟨handle_idempotent_discards_weaker.1
      (NewNominationState "s" ⟨["s", "a"], 1⟩) "a"
      ⟨1, [⟨["v"]⟩], [], ⟨["s", "a"], 1⟩⟩ _ (by decide),
    handle_idempotent_discards_weaker.2.1 _ "a"
      ⟨1, [], [], ⟨["s", "a"], 1⟩⟩ ⟨1, [⟨["v"]⟩], [], ⟨["s", "a"], 1⟩⟩
      (by decide) (by decide) (by decide),
    handle_idempotent_discards_weaker.2.2.1 3 7
      (NewBallotState "s" ⟨["s"], 1⟩) "a"
      (.prepare ⟨1, 1, ⟨["v"]⟩, 0, ⟨[]⟩, 0, ⟨[]⟩, 0, 0, ⟨["s"], 1⟩⟩) _
      (by decide)⟩

/-! ## C9: Handle only processes the new suffix of the message lists -/

theorem addTouched_mem {t : List SlotValue} {v u : SlotValue}
    (h : u ∈ addTouched t v) : u ∈ t ∨ u = v := by
  unfold addTouched at h
  split at h
  · exact Or.inl h
  · rcases List.mem_append.mp h with h | h
    · exact Or.inl h
    · exact Or.inr (List.mem_singleton.mp h)

theorem foldl_addTouched_mem :
    ∀ (vs t : List SlotValue) (u : SlotValue),
      u ∈ vs.foldl addTouched t → u ∈ t ∨ u ∈ vs := by
  intro vs
  induction vs with
  | nil => intro t u h; exact Or.inl h
  | cons v vs ih =>
      intro t u h
      rw [List.foldl_cons] at h
      rcases ih _ _ h with h1 | h1
      · rcases addTouched_mem h1 with h2 | h2
        · exact Or.inl h2
        · exact Or.inr (h2 ▸ List.mem_cons_self v vs)
      · exact Or.inr (List.mem_cons_of_mem v h1)

theorem nomSuffixLoop_touched_mem :
    ∀ (vs t X : List SlotValue) (u : SlotValue),
      u ∈ (nomSuffixLoop (t, X) vs).1 → u ∈ t ∨ u ∈ vs := by
  intro vs
  induction vs with
  | nil => intro t X u h; exact Or.inl h
  | cons v vs ih =>
      intro t X u h
      unfold nomSuffixLoop at h
      rw [List.foldl_cons] at h
      rcases ih _ _ _ h with h1 | h1
      · rcases addTouched_mem h1 with h2 | h2
        · exact Or.inl h2
        · exact Or.inr (h2 ▸ List.mem_cons_self v vs)
      · exact Or.inr (List.mem_cons_of_mem v h1)

theorem nomSuffixLoop_X_mem :
    ∀ (vs t X : List SlotValue) (u : SlotValue),
      u ∈ (nomSuffixLoop (t, X) vs).2 ↔ u ∈ X ∨ u ∈ vs := by
  intro vs
  induction vs with
  | nil => intro t X u; simp [nomSuffixLoop]
  | cons v vs ih =>
      intro t X u
      unfold nomSuffixLoop at ih ⊢
      rw [List.foldl_cons]
      by_cases hv : HasSlotValue X v = true
      · rw [if_pos hv, ih]
        have hvX : v ∈ X := HasSlotValue_iff.mp hv
        constructor
        · rintro (h | h)
          · exact Or.inl h
          · exact Or.inr (List.mem_cons_of_mem v h)
        · rintro (h | h)
          · exact Or.inl h
          · rcases List.mem_cons.mp h with h | h
            · exact Or.inl (h ▸ hvX)
            · exact Or.inr h
      · rw [if_neg hv, ih]
        constructor
        · rintro (h | h)
          · rcases List.mem_append.mp h with h | h
            · exact Or.inl h
            · exact Or.inr (List.mem_cons.mpr
                (Or.inl (List.mem_singleton.mp h)))
          · exact Or.inr (List.mem_cons_of_mem v h)
        · rintro (h | h)
          · exact Or.inl (List.mem_append.mpr (Or.inl h))
          · rcases List.mem_cons.mp h with h | h
            · exact Or.inl (List.mem_append.mpr
                (Or.inr (List.mem_singleton.mpr h)))
            · exact Or.inr h

/-- C9: an accepted (non-stale, non-duplicate) nomination message extends
X only with values of the Nom suffix beyond the previously stored length;
the touched values handed to MaybeAdvance come only from the Nom and Acc
suffixes; and a value replacing an earlier entry within the old prefix
that does not also appear in a suffix is never touched and never enters
X. -/
theorem nomHandle_only_new_suffix (s : NominationState) (node : String)
    (m old : NominationMessage) (s' : NominationState)
    (hold : lookupA s.N node = some old)
    (h1 : old.Nom.length ≤ m.Nom.length)
    (h2 : old.Acc.length ≤ m.Acc.length)
    (h3 : ¬(m.Nom.length = old.Nom.length ∧
      m.Acc.length = old.Acc.length))
    (hs : s.Handle node m = some s') :
    (∀ u, u ∈ s'.X ↔ u ∈ s.X ∨ u ∈ m.Nom.drop old.Nom.length) ∧
    (∀ u, u ∈ s.touchedOf node m →
      u ∈ m.Nom.drop old.Nom.length ∨ u ∈ m.Acc.drop old.Acc.length) ∧
    (∀ u, u ∈ m.Nom.take old.Nom.length ++ m.Acc.take old.Acc.length →
      u ∉ m.Nom.drop old.Nom.length → u ∉ m.Acc.drop old.Acc.length →
      u ∉ s.touchedOf node m ∧ (u ∉ s.X → u ∉ s'.X)) := by
  unfold NominationState.Handle at hs
  simp only [hold, Option.map_some', Option.getD_some] at hs
  rw [if_neg (by omega), if_neg (by omega), if_neg h3] at hs
  have hfold := advanceAll_XN _ _ _ hs
  have hX : s'.X =
      (nomSuffixLoop ([], s.X) (m.Nom.drop old.Nom.length)).2 := hfold.1
  have htouch : ∀ u, u ∈ s.touchedOf node m →
      u ∈ m.Nom.drop old.Nom.length ∨ u ∈ m.Acc.drop old.Acc.length := by
    intro u hu
    unfold NominationState.touchedOf at hu
    simp only [hold, Option.map_some', Option.getD_some] at hu
    rcases foldl_addTouched_mem _ _ _ hu with h | h
    · rcases nomSuffixLoop_touched_mem _ _ _ _ h with h | h
      · exact absurd h (List.not_mem_nil u)
      · exact Or.inl h
    · exact Or.inr h
  refine ⟨fun u => ?_, htouch, fun u _ hn ha => ?_⟩
  · rw [hX, nomSuffixLoop_X_mem]
  · refine ⟨fun ht => (htouch u ht).elim hn ha, fun hx hx' => ?_⟩
    rcases (by rw [hX, nomSuffixLoop_X_mem] at hx'; exact hx' :
      u ∈ s.X ∨ u ∈ m.Nom.drop old.Nom.length) with h | h
    · exact hx h
    · exact hn h

/-- C9 witness: a stored message with Nom = [v]; the new message replaces
v by w in the prefix and adds u, with Acc now [v]. Only u enters X, only
u and v are touched, and the prefix value w is never processed. -/
theorem nomHandle_only_new_suffix_witness :
    ((⟨["u"]⟩ : SlotValue) ∈
        ([⟨["u"]⟩] : List SlotValue) ↔
      (⟨["u"]⟩ : SlotValue) ∈ ([] : List SlotValue) ∨
      (⟨["u"]⟩ : SlotValue) ∈
        ([⟨["w"]⟩, ⟨["u"]⟩] : List SlotValue).drop 1) ∧
    (⟨["w"]⟩ : SlotValue) ∉
      (⟨[], [], [], [("a", ⟨1, [⟨["v"]⟩], [], ⟨["s", "a", "b"], 2⟩⟩)],
        "s", ⟨["s", "a", "b"], 2⟩, 1⟩ : NominationState).touchedOf "a"
        ⟨1, [⟨["w"]⟩, ⟨["u"]⟩], [⟨["v"]⟩], ⟨["s", "a", "b"], 2⟩⟩ := by
  have h := nomHandle_only_new_suffix
    ⟨[], [], [], [("a", ⟨1, [⟨["v"]⟩], [], ⟨["s", "a", "b"], 2⟩⟩)], "s",
      ⟨["s", "a", "b"], 2⟩, 1⟩ "a"
    ⟨1, [⟨["w"]⟩, ⟨["u"]⟩], [⟨["v"]⟩], ⟨["s", "a", "b"], 2⟩⟩
    ⟨1, [⟨["v"]⟩], [], ⟨["s", "a", "b"], 2⟩⟩
    ⟨[⟨["u"]⟩], [⟨["u"]⟩], [],
      [("a", ⟨1, [⟨["w"]⟩, ⟨["u"]⟩], [⟨["v"]⟩], ⟨["s", "a", "b"], 2⟩⟩)],
      "s", ⟨["s", "a", "b"], 2⟩, 2⟩
    rfl (by decide) (by decide) (by decide) (by decide)
  exact ⟨h.1 ⟨["u"]⟩,
    (h.2.2 ⟨["w"]⟩ (by decide) (by decide) (by decide)).1⟩

/-! ## C3: the cn-at-most-hn invariant -/

/-- The inductive invariant of the ballot state: cn never exceeds hn, and
in the Prepare phase hn is non-negative. -/
def BallotInv (s : BallotState) : Prop :=
  s.cn ≤ s.hn ∧ (s.phase = .Prepare → 0 ≤ s.hn)

instance (s : BallotState) : Decidable (BallotInv s) := by
  unfold BallotInv
  infer_instance

theorem cnLoop_le (p pp : Option Ballot) (x : SlotValue) (hn : Int)
    (h0 : 0 ≤ hn) :
    ∀ (fuel : Nat) (cn : Int), cn ≤ hn →
      cnLoop p pp x hn fuel cn ≤ hn := by
  intro fuel
  induction fuel with
  | zero => intro cn h; exact h
  | succ f ih =>
      intro cn h
      unfold cnLoop
      split
      · split
        · exact h0
        · rename_i hlt
          exact ih (cn + 1) (by omega)
      · exact h

theorem abortForPrepared_cn (s : BallotState) (n : Int) (x : SlotValue) :
    (abortForPrepared s n x).cn = 0 ∨
    (abortForPrepared s n x).cn = s.cn := by
  unfold abortForPrepared
  split
  · exact Or.inl rfl
  · exact Or.inr rfl

theorem abandonContradictedCommit_inv (s2 : BallotState)
    (h1 : s2.cn ≤ s2.hn) (h0 : 0 ≤ s2.hn) :
    (abandonContradictedCommit s2).cn ≤ (abandonContradictedCommit s2).hn ∧
    (abandonContradictedCommit s2).phase = s2.phase := by
  unfold abandonContradictedCommit
  split
  · exact ⟨h1, rfl⟩
  · exact ⟨cnLoop_le _ _ _ _ h0 _ _ h1, rfl⟩

theorem maybeAcceptAsPrepared_inv (s : BallotState) (n : Int)
    (x : SlotValue) (r : Bool × BallotState) (hInv : BallotInv s)
    (h : s.MaybeAcceptAsPrepared n x = some r) : BallotInv r.2 := by
  obtain ⟨h1, h2⟩ := hInv
  unfold BallotState.MaybeAcceptAsPrepared at h
  have hph : s.phase ≠ .Prepare ∨ s.phase = .Prepare := by
    by_cases hp : s.phase = .Prepare
    · exact Or.inr hp
    · exact Or.inl hp
  repeat' split at h
  all_goals try (injection h with h; subst h; exact ⟨h1, h2⟩)
  rename_i hp _ _ _ _
  have hprep : s.phase = .Prepare := not_not.mp hp
  have h0 : 0 ≤ s.hn := h2 hprep
  simp only [] at h
  split at h
  · injection h with h; subst h; exact ⟨h1, h2⟩
  rw [Option.map_eq_some'] at h
  obtain ⟨s2, hs2, hr⟩ := h
  have hf1 := abortForPrepared_frame s n x
  have hf2 := updatePPrepared_frame _ _ _ _ hs2
  have hcn2 : s2.cn ≤ s2.hn := by
    rw [hf2.2.1, hf2.1, hf1.1]
    rcases abortForPrepared_cn s n x with hc | hc <;> rw [hc] <;> omega
  have h02 : 0 ≤ s2.hn := by
    rw [hf2.1, hf1.1]
    exact h0
  have hab := abandonContradictedCommit_inv s2 hcn2 h02
  rw [← hr]
  constructor
  · exact hab.1
  · intro _
    have : (abandonContradictedCommit s2).hn = s.hn := by
      rw [(abandonContradictedCommit_frame s2).1, hf2.1, hf1.1]
    rw [this]
    exact h0

theorem confirmPreparedUpdate_phase (s : BallotState) (n : Int)
    (x : SlotValue) : (confirmPreparedUpdate s n x).phase = s.phase := by
  unfold confirmPreparedUpdate
  simp only []
  repeat' split
  all_goals rfl

theorem confirmPreparedUpdate_cn (s : BallotState) (n : Int)
    (x : SlotValue) (hcn : s.cn ≤ s.hn) (hlt : s.hn < n) :
    (confirmPreparedUpdate s n x).cn ≤ n := by
  unfold confirmPreparedUpdate
  simp only []
  repeat' split
  all_goals simp only []
  all_goals omega

theorem maybeConfirmAsPrepared_inv (s : BallotState) (n : Int)
    (x : SlotValue) (r : Bool × BallotState) (hInv : BallotInv s)
    (h : s.MaybeConfirmAsPrepared n x = some r) : BallotInv r.2 := by
  obtain ⟨h1, h2⟩ := hInv
  unfold BallotState.MaybeConfirmAsPrepared at h
  split at h
  · injection h with h; subst h; exact ⟨h1, h2⟩
  rename_i hp
  have hprep : s.phase = .Prepare := not_not.mp hp
  split at h
  · injection h with h; subst h; exact ⟨h1, h2⟩
  rename_i hle
  simp only [] at h
  by_cases hq : (!MeetsQuorum s.QuorumSliceOf s.publicKey
      (s.confirmPreparedSet n x)) = true
  · rw [if_pos hq] at h
    injection h with h; subst h; exact ⟨h1, h2⟩
  · rw [if_neg hq, Option.map_eq_some'] at h
    obtain ⟨u, hu, hr⟩ := h
    rw [← hr]
    constructor
    · rw [confirmPreparedUpdate_hn]
      exact confirmPreparedUpdate_cn s n x h1 (by omega)
    · intro _
      rw [confirmPreparedUpdate_hn]
      have := h2 hprep
      omega

theorem maybeAcceptAsCommitted_inv (s : BallotState) (n : Int)
    (x : SlotValue) (hInv : BallotInv s) :
    BallotInv (s.MaybeAcceptAsCommitted n x).2 := by
  obtain ⟨h1, h2⟩ := hInv
  unfold BallotState.MaybeAcceptAsCommitted
  simp only []
  split
  · exact ⟨h1, h2⟩
  split
  · exact ⟨h1, h2⟩
  split
  · exact ⟨h1, h2⟩
  split
  · constructor
    · simp only []
      split <;> split <;> omega
    · intro hp
      exact nomatch hp
  · exact ⟨le_refl n, fun hp => nomatch hp⟩

theorem maybeConfirmAsCommitted_inv (s : BallotState) (n : Int)
    (x : SlotValue) (hInv : BallotInv s) :
    BallotInv (s.MaybeConfirmAsCommitted n x).2 := by
  obtain ⟨h1, h2⟩ := hInv
  unfold BallotState.MaybeConfirmAsCommitted
  simp only []
  split
  · exact ⟨h1, h2⟩
  rename_i hpre
  split
  · exact ⟨h1, h2⟩
  split
  · exact ⟨h1, h2⟩
  split
  · exact ⟨h1, h2⟩
  split
  · exact ⟨le_refl n, fun hp => nomatch hp⟩
  · constructor
    · simp only []
      split <;> split <;> omega
    · intro hp
      exact absurd hp hpre

theorem maybeNextBallot_cn_hn_phase (s : BallotState) :
    s.MaybeNextBallot.2.cn = s.cn ∧ s.MaybeNextBallot.2.hn = s.hn ∧
    s.MaybeNextBallot.2.phase = s.phase := by
  unfold BallotState.MaybeNextBallot
  split
  · simp only []
    split <;> exact ⟨rfl, rfl, rfl⟩
  · exact ⟨rfl, rfl, rfl⟩

theorem maybeNextBallot_inv (s : BallotState) (hInv : BallotInv s) :
    BallotInv s.MaybeNextBallot.2 := by
  have h := maybeNextBallot_cn_hn_phase s
  unfold BallotInv
  rw [h.1, h.2.1, h.2.2]
  exact hInv

theorem maybeInitializeValue_inv (s : BallotState) (v : SlotValue)
    (hInv : BallotInv s) : BallotInv (s.MaybeInitializeValue v).2 := by
  have h : (s.MaybeInitializeValue v).2.cn = s.cn ∧
      (s.MaybeInitializeValue v).2.hn = s.hn ∧
      (s.MaybeInitializeValue v).2.phase = s.phase := by
    unfold BallotState.MaybeInitializeValue
    split
    · exact ⟨rfl, rfl, rfl⟩
    · simp only []
      split <;> exact ⟨rfl, rfl, rfl⟩
  unfold BallotInv
  rw [h.1, h.2.1, h.2.2]
  exact hInv

theorem maybeUpdateValue_inv (s : BallotState) (ns : NominationState)
    (r : Bool × BallotState) (hInv : BallotInv s)
    (h : s.MaybeUpdateValue ns = some r) : BallotInv r.2 := by
  have hframe : r.2.cn = s.cn ∧ r.2.hn = s.hn ∧ r.2.phase = s.phase := by
    unfold BallotState.MaybeUpdateValue at h
    repeat' split at h
    all_goals try exact Option.noConfusion h
    all_goals try (injection h with h; subst h; exact ⟨rfl, rfl, rfl⟩)
    simp only [] at h
    split at h
    all_goals injection h with h
    all_goals subst h
    all_goals exact ⟨rfl, rfl, rfl⟩
  unfold BallotInv
  rw [hframe.1, hframe.2.1, hframe.2.2]
  exact hInv

theorem investigate_inv (s : BallotState) (n : Int) (x : SlotValue)
    (s' : BallotState) (hInv : BallotInv s)
    (h : s.Investigate n x = some s') : BallotInv s' := by
  unfold BallotState.Investigate at h
  split at h
  · exact Option.noConfusion h
  rename_i r1 h1
  split at h
  · exact Option.noConfusion h
  rename_i r2 h2
  injection h with h
  subst h
  exact maybeConfirmAsCommitted_inv _ _ _
    (maybeAcceptAsCommitted_inv _ _ _
      (maybeConfirmAsPrepared_inv _ _ _ _
        (maybeAcceptAsPrepared_inv _ _ _ _ hInv h1) h2))

theorem investigateRange_inv (x : SlotValue) (cn : Int) :
    ∀ (l : List Nat) (s s' : BallotState), BallotInv s →
      investigateRange x cn l s = some s' → BallotInv s' := by
  intro l
  induction l with
  | nil =>
      intro s s' hInv h
      injection h with h
      subst h
      exact hInv
  | cons a as ih =>
      intro s s' hInv h
      unfold investigateRange at h
      split at h
      · exact Option.noConfusion h
      rename_i s1 h1
      exact ih s1 s' (investigate_inv _ _ _ _ hInv h1) h

theorem investigateMessage_inv (s : BallotState) (m : BallotMessage)
    (s' : BallotState) (hInv : BallotInv s)
    (h : s.investigateMessage m = some s') : BallotInv s' := by
  unfold BallotState.investigateMessage at h
  match m with
  | .prepare pm =>
      simp only [] at h
      split at h
      · exact Option.noConfusion h
      rename_i s1 h1
      split at h
      · exact Option.noConfusion h
      rename_i s2 h2
      exact investigate_inv _ _ _ _
        (investigate_inv _ _ _ _ (investigate_inv _ _ _ _ hInv h1) h2) h
  | .confirm cm => exact investigate_inv _ _ _ _ hInv h
  | .externalize em => exact investigateRange_inv _ _ _ _ _ hInv h

theorem ballotLoop_inv : ∀ (fuel : Nat) (m : BallotMessage)
    (s s' : BallotState), BallotInv s → ballotLoop m fuel s = some s' →
    BallotInv s' := by
  intro fuel
  induction fuel with
  | zero => intro m s s' _ h; exact Option.noConfusion h
  | succ f ih =>
      intro m s s' hInv h
      unfold ballotLoop at h
      split at h
      · exact Option.noConfusion h
      rename_i s1 h1
      have hInv1 := investigateMessage_inv _ _ _ hInv h1
      simp only [] at h
      split at h
      · exact ih m _ _ (maybeNextBallot_inv _ hInv1) h
      · injection h with h
        subst h
        exact maybeNextBallot_inv _ hInv1

theorem ballotHandle_inv (fuel : Nat) (s : BallotState) (node : String)
    (m : BallotMessage) (s' : BallotState) (hInv : BallotInv s)
    (h : BallotState.Handle fuel s node m = some s') : BallotInv s' := by
  unfold BallotState.Handle at h
  cases hl : lookupA s.M node with
  | some old =>
      simp only [hl] at h
      by_cases hc : 0 ≤ Compare old m
      · rw [if_pos hc] at h
        injection h with h
        subst h
        exact hInv
      · rw [if_neg hc] at h
        refine ballotLoop_inv _ _ _ _ ?_ h
        exact ⟨hInv.1, hInv.2⟩
  | none =>
      simp only [hl] at h
      refine ballotLoop_inv _ _ _ _ ?_ h
      exact ⟨hInv.1, hInv.2⟩

/-- C3: in every reachable BallotState, cn is at most hn. The inductive
invariant BallotInv (cn at most hn, strengthened with a non-negative hn
in the Prepare phase) holds in the initial state and is preserved by
MaybeAcceptAsPrepared, MaybeConfirmAsPrepared, MaybeAcceptAsCommitted,
MaybeConfirmAsCommitted, MaybeNextBallot, MaybeInitializeValue,
MaybeUpdateValue and Handle; and it entails cn at most hn. -/
theorem cn_le_hn_invariant :
    (∀ (pk : String) (qs : QuorumSlice), BallotInv (NewBallotState pk qs)) ∧
    (∀ s : BallotState, BallotInv s → s.cn ≤ s.hn) ∧
    (∀ (s : BallotState) (n : Int) (x : SlotValue) (r : Bool × BallotState),
      BallotInv s → s.MaybeAcceptAsPrepared n x = some r →
      BallotInv r.2) ∧
    (∀ (s : BallotState) (n : Int) (x : SlotValue) (r : Bool × BallotState),
      BallotInv s → s.MaybeConfirmAsPrepared n x = some r →
      BallotInv r.2) ∧
    (∀ (s : BallotState) (n : Int) (x : SlotValue), BallotInv s →
      BallotInv (s.MaybeAcceptAsCommitted n x).2) ∧
    (∀ (s : BallotState) (n : Int) (x : SlotValue), BallotInv s →
      BallotInv (s.MaybeConfirmAsCommitted n x).2) ∧
    (∀ s : BallotState, BallotInv s → BallotInv s.MaybeNextBallot.2) ∧
    (∀ (s : BallotState) (v : SlotValue), BallotInv s →
      BallotInv (s.MaybeInitializeValue v).2) ∧
    (∀ (s : BallotState) (ns : NominationState) (r : Bool × BallotState),
      BallotInv s → s.MaybeUpdateValue ns = some r → BallotInv r.2) ∧
    (∀ (fuel : Nat) (s : BallotState) (node : String) (m : BallotMessage)
      (s' : BallotState), BallotInv s →
      BallotState.Handle fuel s node m = some s' → BallotInv s') :=
  ⟨fun _ _ => ⟨le_refl 0, fun _ => le_refl 0⟩,
    fun _ h => h.1,
    maybeAcceptAsPrepared_inv,
    maybeConfirmAsPrepared_inv,
    fun s n x h => maybeAcceptAsCommitted_inv s n x h,
    fun s n x h => maybeConfirmAsCommitted_inv s n x h,
    maybeNextBallot_inv,
    maybeInitializeValue_inv,
    maybeUpdateValue_inv,
    ballotHandle_inv⟩

/-- C3 witness: the invariant holds at the fresh state and is carried
through a concrete Handle of a prepare message. -/
theorem cn_le_hn_invariant_witness :
    BallotInv (NewBallotState "s" ⟨["s"], 1⟩) ∧
    BallotInv ⟨Phase.Prepare, none, none, none, none, 0, 0, none,
      [("a", .prepare ⟨1, 1, ⟨["v"]⟩, 0, ⟨[]⟩, 0, ⟨[]⟩, 0, 0,
        ⟨["s"], 1⟩⟩)], "s", ⟨["s"], 1⟩, 1⟩ :=
  ⟨cn_le_hn_invariant.1 "s" ⟨["s"], 1⟩,
    cn_le_hn_invariant.2.2.2.2.2.2.2.2.2 3 (NewBallotState "s" ⟨["s"], 1⟩)
      "a" (.prepare ⟨1, 1, ⟨["v"]⟩, 0, ⟨[]⟩, 0, ⟨[]⟩, 0, 0, ⟨["s"], 1⟩⟩)
      _ (by decide) (by decide)⟩

/-! ## C2: Chain.Handle at the current slot -/

/-- C2: when Chain.Handle receives a non-Info message for the current
slot from a sender other than self (with a non-zero current slot, as in
every reachable chain, and a block handling that does not hit a fatal
assertion), it forwards the message to the current Block; exactly when
the handled block is done and the ValueStore can finalize the
externalized value, it finalizes that value, archives the block into
history at its slot and starts a fresh current Block at slot + 1 —
otherwise the handled block simply stays current; in every such case the
response is nil. -/
theorem chainHandle_current_slot (fuel : Nat) (c : Chain) (sender : String)
    (msg : Msg) (blk : Block) (h1 : sender ≠ c.publicKey)
    (h2 : msg.isInfo = false) (h3 : msg.slot = c.current.slot)
    (h4 : c.current.slot ≠ 0)
    (h5 : Block.Handle fuel c.current sender msg = some blk) :
    Chain.Handle fuel c sender msg = some (none,
      match blk.external with
      | some e =>
          if c.values.CanFinalize e.X then
            { c with
              values := c.values.Finalize e.X,
              history := updateA c.history c.current.slot blk,
              current := NewBlock c.publicKey c.D (c.current.slot + 1) }
          else { c with current := blk }
      | none => { c with current := blk }) := by
  unfold Chain.Handle
  rw [if_neg h1, if_neg (fun he => h4 (h3 ▸ he)), if_neg (by simp [h2]),
    if_pos h3]
  simp only [h5]
  cases he : blk.external with
  | none => simp [he]
  | some e =>
      by_cases hf : c.values.CanFinalize e.X = true
      · simp [he, hf]
      · simp [he, hf]

/-- C2 witness: a fresh two-node chain handling a nomination message for
slot 1 from the peer; the block is unchanged and not done, so the chain
keeps it current and answers nil. -/
theorem chainHandle_current_slot_witness :
    Chain.Handle 5
        (NewEmptyChain "me" ⟨["me", "a"], 1⟩ ⟨fun _ => true, []⟩) "a"
        (.nomination ⟨1, [], [], ⟨["me", "a"], 1⟩⟩) =
      some (none,
        { NewEmptyChain "me" ⟨["me", "a"], 1⟩ ⟨fun _ => true, []⟩ with
          current := NewBlock "me" ⟨["me", "a"], 1⟩ 1 }) :=
  chainHandle_current_slot 5
    (NewEmptyChain "me" ⟨["me", "a"], 1⟩ ⟨fun _ => true, []⟩) "a"
    (.nomination ⟨1, [], [], ⟨["me", "a"], 1⟩⟩)
    (NewBlock "me" ⟨["me", "a"], 1⟩ 1) (by decide) rfl (by decide)
    (by decide) (by decide)

end Coinkit
